import Mathlib

/-!
Verification of the ContextGraph repository: a shallow embedding of the
store (db.py), the tree-sitter based indexer (indexer.py), the graph
query layer (graph.py), the skeletonizer (skeletonizer.py), the resume
renderer (resume.py) and the watcher's debounced handler (watcher.py),
together with theorems settling the specification claims.

Modelling conventions:
* SQLite tables are lists of records; the `edges` surrogate autoincrement
  `id` column is not modelled (rows are identified by their content; the
  schema's unique index makes (source_id, target_id, kind) the logical key).
* Wall-clock timestamps (Python floats) are modelled as `Int`; they are
  only ever compared and stored.
* Python byte strings are modelled as `List Char` (byte-for-char for the
  ASCII sources the claims are evaluated on); Python `str` values are
  Lean `String`s.
* The external tree-sitter parser is an input: functions that parse take
  the resulting concrete syntax tree (`TSNode`) together with the source
  bytes, mirroring `_PARSER.parse(source)` producing `tree.root_node`.
* Each `Database` method executes its SQL and then calls `conn.commit()`,
  so one method call is one committed SQLite transaction; `index_file`'s
  commit sequence is modelled explicitly for the atomicity claim.
-/

set_option maxHeartbeats 1000000

namespace ContextGraph

/-! ### String helpers mirroring the Python string operations used by the
repository.  They are written structurally over `String.data` so that all
theorems can be evaluated on concrete inputs. -/

/-- Python `s.startswith(p)`. -/
def pyStartsWith (s p : String) : Bool := p.data.isPrefixOf s.data

/-- Python `s.endswith(p)`. -/
def pyEndsWith (s p : String) : Bool := p.data.isSuffixOf s.data

/-- Python `s[n:]`. -/
def pyDrop (s : String) (n : Nat) : String := String.mk (s.data.drop n)

/-- Python `s[:n]` for nonnegative `n`. -/
def pyTake (s : String) (n : Nat) : String := String.mk (s.data.take n)

/-- Python `s[:-n]` (empty result when `n` exceeds the length). -/
def pyDropRight (s : String) (n : Nat) : String :=
  String.mk (s.data.take (s.data.length - n))

/-- Python `s.strip()` (ASCII whitespace). -/
def pyStrip (s : String) : String :=
  String.mk (((s.data.dropWhile Char.isWhitespace).reverse.dropWhile Char.isWhitespace).reverse)

/-- Python `s.lstrip("@")`. -/
def pyLstripAt (s : String) : String := String.mk (s.data.dropWhile (fun c => c == '@'))

def splitCharAux (sep : Char) : List Char → List Char → List String
  | [], acc => [String.mk acc.reverse]
  | c :: rest, acc =>
    if c == sep then String.mk acc.reverse :: splitCharAux sep rest []
    else splitCharAux sep rest (c :: acc)

/-- Python `s.split(sep)` for a one-character separator. -/
def pySplitChar (sep : Char) (s : String) : List String := splitCharAux sep s.data []

/-- Python `s.removesuffix(suf)`. -/
def pyRemoveSuffix (s suf : String) : String :=
  if pyEndsWith s suf then pyDropRight s suf.data.length else s

def replaceAux (pat rep : List Char) : List Char → List Char
  | [] => []
  | c :: rest =>
    if pat.isPrefixOf (c :: rest) then
      match pat with
      | [] => c :: replaceAux pat rep rest
      | _ :: ps => rep ++ replaceAux pat rep (rest.drop ps.length)
    else c :: replaceAux pat rep rest
termination_by cs => cs.length
decreasing_by
  all_goals simp only [List.length_cons, List.length_drop]
  all_goals omega

/-- Python `s.replace(pat, rep)` (all occurrences; call sites use a
nonempty pattern). -/
def pyReplace (s pat rep : String) : String :=
  String.mk (replaceAux pat.data rep.data s.data)

/-- Python `sep.join(xs)`. -/
def pyJoin (sep : String) : List String → String
  | [] => ""
  | [x] => x
  | x :: xs => x ++ sep ++ pyJoin sep xs

/-! ### Data model (models.py).  Field defaults follow the dataclasses. -/

structure NodeRecord where
  id : String
  kind : String
  name : String
  file_path : String
  line_start : Nat
  line_end : Nat
  file_hash : String
  indexed_at : Int
  parent_id : Option String := none
  signature : Option String := none
  docstring : Option String := none
  decorators : List String := []
  is_external : Bool := false
deriving DecidableEq, Repr

structure EdgeRecord where
  source_id : String
  target_id : String
  kind : String
  file_path : String
  line : Option Nat := none
  metadata : Option String := none
  resolved : Bool := false
deriving DecidableEq, Repr

structure Observation where
  id : Nat
  content : String
  created_at : Int
  node_id : Option String := none
  tags : List String := []
  source : String := "user"
deriving DecidableEq, Repr

structure IndexedFile where
  file_path : String
  file_hash : String
  indexed_at : Int
  node_count : Nat := 0
deriving DecidableEq, Repr

/-- The four tables of a project store (db.py schema). -/
structure DB where
  nodes : List NodeRecord
  edges : List EdgeRecord
  observations : List Observation
  indexed_files : List IndexedFile
deriving DecidableEq, Repr

def emptyDB : DB := ⟨[], [], [], []⟩

/-! ### Store operations (db.py).  Each definition models one `Database`
method: the SQL it executes followed by `conn.commit()`. -/

/-- `INSERT ... ON CONFLICT(id) DO UPDATE SET <every column>`: the row with
the conflicting primary key is overwritten in place, otherwise the row is
appended. -/
def upsertNodeRow (ns : List NodeRecord) (n : NodeRecord) : List NodeRecord :=
  if ns.any (fun m => m.id == n.id) then
    ns.map (fun m => if m.id == n.id then n else m)
  else ns ++ [n]

def DB.upsert_node (db : DB) (n : NodeRecord) : DB :=
  { db with nodes := upsertNodeRow db.nodes n }

/-- `executemany` of the same upsert: sequential row upserts in one call. -/
def DB.upsert_nodes (db : DB) (ns : List NodeRecord) : DB :=
  { db with nodes := ns.foldl upsertNodeRow db.nodes }

def DB.get_node (db : DB) (node_id : String) : Option NodeRecord :=
  db.nodes.find? (fun n => n.id == node_id)

def matchesOpt (v : String) : Option String → Bool
  | none => true
  | some x => v == x

def matchesOptB (v : Bool) : Option Bool → Bool
  | none => true
  | some x => v == x

def DB.list_nodes (db : DB) (file_path kind name : Option String)
    (external : Option Bool) : List NodeRecord :=
  db.nodes.filter (fun n =>
    matchesOpt n.file_path file_path && matchesOpt n.kind kind &&
    matchesOpt n.name name && matchesOptB n.is_external external)

def nodeIdPresent (ns : List NodeRecord) (i : String) : Bool :=
  ns.any (fun n => n.id == i)

/-- One round of `ON DELETE CASCADE` on `nodes.parent_id`: drop rows whose
parent row is gone. -/
def cascadeStep (ns : List NodeRecord) : List NodeRecord :=
  ns.filter (fun n =>
    match n.parent_id with
    | none => true
    | some p => nodeIdPresent ns p)

/-- The cascade run to a fixpoint (bounded by the table size). -/
def cascadeIter : Nat → List NodeRecord → List NodeRecord
  | 0, ns => ns
  | k + 1, ns => cascadeIter k (cascadeStep ns)

/-- `DELETE FROM nodes WHERE file_path = ?` with the schema's referential
actions: the parent_id cascade removes orphaned descendants, the
`edges.source_id` cascade removes edges of deleted nodes, and
`observations.node_id` is set to NULL for deleted nodes. -/
def DB.delete_nodes_for_file (db : DB) (fp : String) : DB :=
  let remaining := cascadeIter db.nodes.length
    (db.nodes.filter (fun n => !(n.file_path == fp)))
  { db with
    nodes := remaining
    edges := db.edges.filter (fun e => nodeIdPresent remaining e.source_id)
    observations := db.observations.map (fun o =>
      match o.node_id with
      | none => o
      | some i => if nodeIdPresent remaining i then o else { o with node_id := none }) }

def edgeKey (e : EdgeRecord) : String × String × String :=
  (e.source_id, e.target_id, e.kind)

/-- The `DO UPDATE SET` clause of the edge upsert: location metadata of the
conflicting row is overwritten, the key columns are untouched. -/
def updateEdgeLoc (f e : EdgeRecord) : EdgeRecord :=
  { f with file_path := e.file_path, line := e.line,
           metadata := e.metadata, resolved := e.resolved }

/-- `INSERT ... ON CONFLICT(source_id, target_id, kind) DO UPDATE SET
file_path, line, metadata, resolved`. -/
def upsertEdgeRow (es : List EdgeRecord) (e : EdgeRecord) : List EdgeRecord :=
  if es.any (fun f => decide (edgeKey f = edgeKey e)) then
    es.map (fun f => if edgeKey f = edgeKey e then updateEdgeLoc f e else f)
  else es ++ [e]

def DB.upsert_edge (db : DB) (e : EdgeRecord) : DB :=
  { db with edges := upsertEdgeRow db.edges e }

def DB.upsert_edges (db : DB) (es : List EdgeRecord) : DB :=
  { db with edges := es.foldl upsertEdgeRow db.edges }

def DB.get_edges (db : DB) (source_id target_id kind : Option String) : List EdgeRecord :=
  db.edges.filter (fun e =>
    matchesOpt e.source_id source_id && matchesOpt e.target_id target_id &&
    matchesOpt e.kind kind)

def DB.delete_edges_for_file (db : DB) (fp : String) : DB :=
  { db with edges := db.edges.filter (fun e => !(e.file_path == fp)) }

def nextObsId (db : DB) : Nat :=
  (db.observations.map (fun o => o.id)).foldl max 0 + 1

def DB.add_observation (db : DB) (o : Observation) : DB :=
  { db with observations := db.observations ++ [{ o with id := nextObsId db }] }

def DB.delete_observation (db : DB) (obs_id : Nat) : DB :=
  { db with observations := db.observations.filter (fun o => !(o.id == obs_id)) }

def insertDescBy {α : Type} (key : α → Int) (x : α) : List α → List α
  | [] => [x]
  | y :: ys => if key x > key y then x :: y :: ys else y :: insertDescBy key x ys

/-- A stable descending sort, modelling `ORDER BY <key> DESC`. -/
def sortDescBy {α : Type} (key : α → Int) : List α → List α
  | [] => []
  | x :: xs => insertDescBy key x (sortDescBy key xs)

def applyLimit {α : Type} (limit : Option Nat) (xs : List α) : List α :=
  match limit with
  | none => xs
  | some l => xs.take l

/-- `WHERE created_at > ? [AND source = ?] ORDER BY created_at DESC [LIMIT]`. -/
def DB.list_observations_since (db : DB) (since : Int) (source : Option String)
    (limit : Option Nat) : List Observation :=
  applyLimit limit
    (sortDescBy (fun o => o.created_at)
      (db.observations.filter (fun o =>
        decide (since < o.created_at) && matchesOpt o.source source)))

def upsertIndexedRow (fs : List IndexedFile) (f : IndexedFile) : List IndexedFile :=
  if fs.any (fun g => g.file_path == f.file_path) then
    fs.map (fun g => if g.file_path == f.file_path then f else g)
  else fs ++ [f]

def DB.upsert_indexed_file (db : DB) (f : IndexedFile) : DB :=
  { db with indexed_files := upsertIndexedRow db.indexed_files f }

def DB.get_indexed_file (db : DB) (fp : String) : Option IndexedFile :=
  db.indexed_files.find? (fun f => f.file_path == fp)

def DB.delete_indexed_file (db : DB) (fp : String) : DB :=
  { db with indexed_files := db.indexed_files.filter (fun f => !(f.file_path == fp)) }

/-- `WHERE indexed_at > ? ORDER BY indexed_at DESC [LIMIT]`. -/
def DB.list_recently_indexed_files (db : DB) (since : Int) (limit : Option Nat) :
    List IndexedFile :=
  applyLimit limit
    (sortDescBy (fun f => f.indexed_at)
      (db.indexed_files.filter (fun f => decide (since < f.indexed_at))))

/-! ### Graph queries (graph.py).  `depth` is a Python int, modelled as
`Int`; the recursion `edges.extend(...)` over the snapshot `list(edges)`
appends, for each direct edge, the recursive result at `depth - 1`. -/

def Graph.dependents (db : DB) (node_id : String) (kind : Option String)
    (depth : Int) : List EdgeRecord :=
  if depth ≤ 0 then []
  else
    let edges := db.get_edges none (some node_id) kind
    if 1 < depth then
      edges ++ (edges.map (fun e => Graph.dependents db e.source_id kind (depth - 1))).flatten
    else edges
termination_by depth.toNat
decreasing_by
  omega

def Graph.dependencies (db : DB) (node_id : String) (kind : Option String)
    (depth : Int) : List EdgeRecord :=
  if depth ≤ 0 then []
  else
    let edges := db.get_edges (some node_id) none kind
    if 1 < depth then
      edges ++ (edges.map (fun e => Graph.dependencies db e.target_id kind (depth - 1))).flatten
    else edges
termination_by depth.toNat
decreasing_by
  omega

/-! ### Watcher (watcher.py): the ignore check and the debounced handler's
event methods.  The pending-timer map is an association list from path to
the action the timer will run; scheduling cancels any existing timer for
the path and registers the new one.  Timer expiry actions
(`index_file` / `remove_file`) originate only from scheduled entries. -/

def IGNORE_DIRS : List String := [".venv", "__pycache__", ".context_graph", "node_modules", ".git"]

/-- `pathlib.Path(path).parts` for a POSIX path: the root anchor `"/"` when
absolute, then the non-empty segments; `"."` segments are dropped by
pathlib. -/
def pathParts (p : String) : List String :=
  let segs := (pySplitChar '/' p).filter (fun s => !(s == "") && !(s == "."))
  if pyStartsWith p "/" then "/" :: segs else segs

def shouldIgnore (path : String) : Bool :=
  (pathParts path).any (fun p => IGNORE_DIRS.contains p || pyStartsWith p ".")

/-- The pending map plus whether this call scheduled a debounce timer. -/
abbrev HandlerState := List (String × String)

/-- `_DebouncedHandler._schedule`: cancel the pending timer for the path
(if any) and register a timer that will run `action`. -/
def schedule (pending : HandlerState) (path action : String) : HandlerState :=
  (pending.filter (fun kv => !(kv.1 == path))) ++ [(path, action)]

/-- `on_created`; returns the new pending map and whether a timer was
scheduled. -/
def onCreated (pending : HandlerState) (srcPath : String) (isDirectory : Bool) :
    HandlerState × Bool :=
  if isDirectory || !(pyEndsWith srcPath ".py") then (pending, false)
  else if shouldIgnore srcPath then (pending, false)
  else (schedule pending srcPath "index", true)

def onModified (pending : HandlerState) (srcPath : String) (isDirectory : Bool) :
    HandlerState × Bool :=
  if isDirectory || !(pyEndsWith srcPath ".py") then (pending, false)
  else if shouldIgnore srcPath then (pending, false)
  else (schedule pending srcPath "index", true)

def onDeleted (pending : HandlerState) (srcPath : String) (isDirectory : Bool) :
    HandlerState × Bool :=
  if isDirectory || !(pyEndsWith srcPath ".py") then (pending, false)
  else if shouldIgnore srcPath then (pending, false)
  else (schedule pending srcPath "delete", true)

/-! ### Reachable store states and the edge-uniqueness invariant. -/

/-- At most one edge row per (source_id, target_id, kind) triple. -/
def EdgeKeysUnique (es : List EdgeRecord) : Prop :=
  es.Pairwise (fun a b => edgeKey a ≠ edgeKey b)

/-- Store states reachable from a fresh database through the `Database`
API (db.py); the indexer's operations are compositions of these. -/
inductive Reachable : DB → Prop
  | empty : Reachable emptyDB
  | upsert_node (db : DB) (n : NodeRecord) : Reachable db → Reachable (db.upsert_node n)
  | upsert_nodes (db : DB) (ns : List NodeRecord) : Reachable db → Reachable (db.upsert_nodes ns)
  | delete_nodes_for_file (db : DB) (fp : String) :
      Reachable db → Reachable (db.delete_nodes_for_file fp)
  | upsert_edge (db : DB) (e : EdgeRecord) : Reachable db → Reachable (db.upsert_edge e)
  | upsert_edges (db : DB) (es : List EdgeRecord) : Reachable db → Reachable (db.upsert_edges es)
  | delete_edges_for_file (db : DB) (fp : String) :
      Reachable db → Reachable (db.delete_edges_for_file fp)
  | add_observation (db : DB) (o : Observation) : Reachable db → Reachable (db.add_observation o)
  | delete_observation (db : DB) (i : Nat) : Reachable db → Reachable (db.delete_observation i)
  | upsert_indexed_file (db : DB) (f : IndexedFile) :
      Reachable db → Reachable (db.upsert_indexed_file f)
  | delete_indexed_file (db : DB) (fp : String) :
      Reachable db → Reachable (db.delete_indexed_file fp)

theorem edgeKey_updateEdgeLoc (f e : EdgeRecord) : edgeKey (updateEdgeLoc f e) = edgeKey f := rfl

theorem updateEdgeLoc_eq_of_key (f e : EdgeRecord) (h : edgeKey f = edgeKey e) :
    updateEdgeLoc f e = e := by
  cases f; cases e
  simp only [edgeKey, Prod.mk.injEq] at h
  simp [updateEdgeLoc, h.1, h.2.1, h.2.2]

theorem edgeKeysUnique_upsertEdgeRow {es : List EdgeRecord} (e : EdgeRecord)
    (h : EdgeKeysUnique es) : EdgeKeysUnique (upsertEdgeRow es e) := by
  unfold upsertEdgeRow
  by_cases hex : (es.any fun f => decide (edgeKey f = edgeKey e)) = true
  · rw [if_pos hex]
    unfold EdgeKeysUnique
    rw [List.pairwise_map]
    refine h.imp ?_
    intro a b hab
    have key_pres : ∀ f : EdgeRecord,
        edgeKey (if edgeKey f = edgeKey e then updateEdgeLoc f e else f) = edgeKey f := by
      intro f
      by_cases hf : edgeKey f = edgeKey e
      · rw [if_pos hf, edgeKey_updateEdgeLoc]
      · rw [if_neg hf]
    rw [key_pres a, key_pres b]
    exact hab
  · rw [if_neg hex]
    unfold EdgeKeysUnique
    rw [List.pairwise_append]
    refine ⟨h, List.pairwise_singleton _ _, ?_⟩
    intro a ha b hb
    simp only [List.mem_singleton] at hb
    subst hb
    simp only [List.any_eq_true, decide_eq_true_eq, not_exists, not_and] at hex
    exact hex a ha

theorem edgeKeysUnique_foldl {es : List EdgeRecord} {new : List EdgeRecord}
    (h : EdgeKeysUnique es) : EdgeKeysUnique (new.foldl upsertEdgeRow es) := by
  induction new generalizing es with
  | nil => exact h
  | cons x xs ih => exact ih (edgeKeysUnique_upsertEdgeRow x h)

theorem edgeKeysUnique_filter {es : List EdgeRecord} (p : EdgeRecord → Bool)
    (h : EdgeKeysUnique es) : EdgeKeysUnique (es.filter p) :=
  h.sublist (List.filter_sublist es)

theorem reachable_edgeKeysUnique {db : DB} (h : Reachable db) : EdgeKeysUnique db.edges := by
  induction h with
  | empty => exact List.Pairwise.nil
  | upsert_node db n _ ih => exact ih
  | upsert_nodes db ns _ ih => exact ih
  | delete_nodes_for_file db fp _ ih => exact edgeKeysUnique_filter _ ih
  | upsert_edge db e _ ih => exact edgeKeysUnique_upsertEdgeRow e ih
  | upsert_edges db es _ ih => exact edgeKeysUnique_foldl ih
  | delete_edges_for_file db fp _ ih => exact edgeKeysUnique_filter _ ih
  | add_observation db o _ ih => exact ih
  | delete_observation db i _ ih => exact ih
  | upsert_indexed_file db f _ ih => exact ih
  | delete_indexed_file db fp _ ih => exact ih

theorem mem_upsertEdgeRow {es : List EdgeRecord} {e m : EdgeRecord} :
    m ∈ upsertEdgeRow es e ↔ m = e ∨ (m ∈ es ∧ edgeKey m ≠ edgeKey e) := by
  unfold upsertEdgeRow
  by_cases hex : (es.any fun f => decide (edgeKey f = edgeKey e)) = true
  · rw [if_pos hex]
    simp only [List.any_eq_true, decide_eq_true_eq] at hex
    obtain ⟨f₀, hf₀, hk₀⟩ := hex
    rw [List.mem_map]
    constructor
    · rintro ⟨f, hf, rfl⟩
      by_cases hk : edgeKey f = edgeKey e
      · exact Or.inl (by rw [if_pos hk, updateEdgeLoc_eq_of_key f e hk])
      · exact Or.inr ⟨by rwa [if_neg hk], by rwa [if_neg hk]⟩
    · rintro (rfl | ⟨hm, hk⟩)
      · exact ⟨f₀, hf₀, by rw [if_pos hk₀, updateEdgeLoc_eq_of_key f₀ m hk₀]⟩
      · exact ⟨m, hm, by rw [if_neg hk]⟩
  · rw [if_neg hex]
    simp only [List.any_eq_true, decide_eq_true_eq, not_exists, not_and] at hex
    rw [List.mem_append, List.mem_singleton]
    constructor
    · rintro (hm | rfl)
      · exact Or.inr ⟨hm, hex m hm⟩
      · exact Or.inl rfl
    · rintro (rfl | ⟨hm, _⟩)
      · exact Or.inr rfl
      · exact Or.inl hm

theorem mem_upsertNodeRow {ns : List NodeRecord} {n m : NodeRecord} :
    m ∈ upsertNodeRow ns n ↔ m = n ∨ (m ∈ ns ∧ m.id ≠ n.id) := by
  unfold upsertNodeRow
  by_cases hex : (ns.any fun f => f.id == n.id) = true
  · rw [if_pos hex]
    simp only [List.any_eq_true, beq_iff_eq] at hex
    obtain ⟨f₀, hf₀, hk₀⟩ := hex
    rw [List.mem_map]
    constructor
    · rintro ⟨f, hf, rfl⟩
      by_cases hk : f.id = n.id
      · exact Or.inl (by rw [if_pos (beq_iff_eq.mpr hk)])
      · rw [if_neg (by simpa using hk)]
        exact Or.inr ⟨hf, hk⟩
    · rintro (rfl | ⟨hm, hk⟩)
      · exact ⟨f₀, hf₀, by rw [if_pos (beq_iff_eq.mpr hk₀)]⟩
      · exact ⟨m, hm, by rw [if_neg (by simpa using hk)]⟩
  · rw [if_neg hex]
    simp only [List.any_eq_true, beq_iff_eq, not_exists, not_and] at hex
    rw [List.mem_append, List.mem_singleton]
    constructor
    · rintro (hm | rfl)
      · exact Or.inr ⟨hm, hex m hm⟩
      · exact Or.inl rfl
    · rintro (rfl | ⟨hm, _⟩)
      · exact Or.inr rfl
      · exact Or.inl hm

/-- The last row in an upsert batch carrying a given primary key. -/
def lastWithId : List NodeRecord → String → Option NodeRecord
  | [], _ => none
  | n :: rest, i =>
    match lastWithId rest i with
    | some r => some r
    | none => if n.id = i then some n else none

/-- The last row in an edge batch carrying a given (source, target, kind). -/
def lastWithKey : List EdgeRecord → String × String × String → Option EdgeRecord
  | [], _ => none
  | e :: rest, k =>
    match lastWithKey rest k with
    | some r => some r
    | none => if edgeKey e = k then some e else none

theorem lastWithId_cons (n : NodeRecord) (rest : List NodeRecord) (i : String) :
    lastWithId (n :: rest) i =
      match lastWithId rest i with
      | some r => some r
      | none => if n.id = i then some n else none := rfl

theorem lastWithKey_cons (e : EdgeRecord) (rest : List EdgeRecord)
    (k : String × String × String) :
    lastWithKey (e :: rest) k =
      match lastWithKey rest k with
      | some r => some r
      | none => if edgeKey e = k then some e else none := rfl

theorem mem_foldl_upsertNodeRow (ns : List NodeRecord) :
    ∀ (base : List NodeRecord) (m : NodeRecord),
      m ∈ ns.foldl upsertNodeRow base ↔
        lastWithId ns m.id = some m ∨ (m ∈ base ∧ lastWithId ns m.id = none) := by
  induction ns with
  | nil => intro base m; simp [lastWithId]
  | cons x xs ih =>
    intro base m
    rw [List.foldl_cons, ih (upsertNodeRow base x) m, lastWithId_cons]
    cases hlast : lastWithId xs m.id with
    | some r => simp
    | none =>
      rw [mem_upsertNodeRow]
      by_cases hx : x.id = m.id
      · simp only [if_pos hx]
        constructor
        · rintro (h | ⟨h1, -⟩)
          · exact absurd h (by simp)
          · rcases h1 with rfl | ⟨hmem, hid⟩
            · exact Or.inl rfl
            · exact absurd hx.symm hid
        · rintro (h | ⟨-, h⟩)
          · exact Or.inr ⟨Or.inl (Option.some.inj h).symm, trivial⟩
          · exact absurd h (by simp)
      · simp only [if_neg hx]
        constructor
        · rintro (h | ⟨h1, -⟩)
          · exact absurd h (by simp)
          · rcases h1 with rfl | ⟨hmem, hid⟩
            · exact absurd rfl hx
            · exact Or.inr ⟨hmem, trivial⟩
        · rintro (h | ⟨hmem, -⟩)
          · exact absurd h (by simp)
          · exact Or.inr ⟨Or.inr ⟨hmem, fun hh => hx hh.symm⟩, trivial⟩

theorem mem_foldl_upsertEdgeRow (es : List EdgeRecord) :
    ∀ (base : List EdgeRecord) (m : EdgeRecord),
      m ∈ es.foldl upsertEdgeRow base ↔
        lastWithKey es (edgeKey m) = some m ∨ (m ∈ base ∧ lastWithKey es (edgeKey m) = none) := by
  induction es with
  | nil => intro base m; simp [lastWithKey]
  | cons x xs ih =>
    intro base m
    rw [List.foldl_cons, ih (upsertEdgeRow base x) m, lastWithKey_cons]
    cases hlast : lastWithKey xs (edgeKey m) with
    | some r => simp
    | none =>
      rw [mem_upsertEdgeRow]
      by_cases hx : edgeKey x = edgeKey m
      · simp only [if_pos hx]
        constructor
        · rintro (h | ⟨h1, -⟩)
          · exact absurd h (by simp)
          · rcases h1 with rfl | ⟨hmem, hid⟩
            · exact Or.inl rfl
            · exact absurd hx.symm hid
        · rintro (h | ⟨-, h⟩)
          · exact Or.inr ⟨Or.inl (Option.some.inj h).symm, trivial⟩
          · exact absurd h (by simp)
      · simp only [if_neg hx]
        constructor
        · rintro (h | ⟨h1, -⟩)
          · exact absurd h (by simp)
          · rcases h1 with rfl | ⟨hmem, hid⟩
            · exact absurd rfl hx
            · exact Or.inr ⟨hmem, trivial⟩
        · rintro (h | ⟨hmem, -⟩)
          · exact absurd h (by simp)
          · exact Or.inr ⟨Or.inr ⟨hmem, fun hh => hx hh.symm⟩, trivial⟩

theorem mem_cascadeIter {k : Nat} {ns : List NodeRecord} {n : NodeRecord}
    (h : n ∈ cascadeIter k ns) : n ∈ ns := by
  induction k generalizing ns with
  | zero => exact h
  | succ k ih =>
    have := @ih (cascadeStep ns) h
    exact List.mem_of_mem_filter this

theorem delete_nodes_for_file_no_path {db : DB} {fp : String} {n : NodeRecord}
    (h : n ∈ (db.delete_nodes_for_file fp).nodes) : n.file_path ≠ fp := by
  have hmem := mem_cascadeIter (k := db.nodes.length) h
  have := List.of_mem_filter hmem
  simpa using this

theorem delete_edges_for_file_no_path {db : DB} {fp : String} {e : EdgeRecord}
    (h : e ∈ (db.delete_edges_for_file fp).edges) : e.file_path ≠ fp := by
  have := List.of_mem_filter h
  simpa using this

theorem flatten_map_nil {α β : Type} (l : List α) :
    (l.map (fun _ => ([] : List β))).flatten = [] := by
  induction l with
  | nil => rfl
  | cons x xs ih => simp [ih]

theorem dependencies_nonpos (db : DB) (i : String) (k : Option String) {n : Int}
    (h : n ≤ 0) : Graph.dependencies db i k n = [] := by
  rw [Graph.dependencies]
  simp [if_pos h]

theorem dependents_nonpos (db : DB) (i : String) (k : Option String) {n : Int}
    (h : n ≤ 0) : Graph.dependents db i k n = [] := by
  rw [Graph.dependents]
  simp [if_pos h]

/-- C5: in every reachable store state there is at most one edge row per
(source_id, target_id, kind) triple, and upserting an edge whose triple is
already present leaves the row count unchanged, carries the new row's
location metadata on the surviving row, and keeps every other row. -/
theorem c5_edge_uniqueness (db : DB) (h : Reachable db) :
    EdgeKeysUnique db.edges ∧
    ∀ e f : EdgeRecord, f ∈ db.edges → edgeKey f = edgeKey e →
      ((db.upsert_edge e).edges.length = db.edges.length ∧
       e ∈ (db.upsert_edge e).edges ∧
       ∀ g ∈ db.edges, edgeKey g ≠ edgeKey e → g ∈ (db.upsert_edge e).edges) := by
  refine ⟨reachable_edgeKeysUnique h, ?_⟩
  intro e f hf hk
  have hex : (db.edges.any fun g => decide (edgeKey g = edgeKey e)) = true := by
    simp only [List.any_eq_true, decide_eq_true_eq]
    exact ⟨f, hf, hk⟩
  have hrw : (db.upsert_edge e).edges =
      db.edges.map (fun g => if edgeKey g = edgeKey e then updateEdgeLoc g e else g) := by
    unfold DB.upsert_edge upsertEdgeRow
    rw [if_pos hex]
  refine ⟨by rw [hrw, List.length_map], ?_, ?_⟩
  · rw [hrw, List.mem_map]
    exact ⟨f, hf, by rw [if_pos hk, updateEdgeLoc_eq_of_key f e hk]⟩
  · intro g hg hkg
    rw [hrw, List.mem_map]
    exact ⟨g, hg, by rw [if_neg hkg]⟩

theorem c5_edge_uniqueness_witness :
    EdgeKeysUnique (emptyDB.upsert_edge
      { source_id := "a.f", target_id := "b.g", kind := "calls",
        file_path := "a.py", line := some 3 }).edges ∧
    ∀ e f : EdgeRecord,
      f ∈ (emptyDB.upsert_edge
        { source_id := "a.f", target_id := "b.g", kind := "calls",
          file_path := "a.py", line := some 3 }).edges → edgeKey f = edgeKey e →
      (((emptyDB.upsert_edge
        { source_id := "a.f", target_id := "b.g", kind := "calls",
          file_path := "a.py", line := some 3 }).upsert_edge e).edges.length =
        (emptyDB.upsert_edge
        { source_id := "a.f", target_id := "b.g", kind := "calls",
          file_path := "a.py", line := some 3 }).edges.length ∧
       e ∈ ((emptyDB.upsert_edge
        { source_id := "a.f", target_id := "b.g", kind := "calls",
          file_path := "a.py", line := some 3 }).upsert_edge e).edges ∧
       ∀ g ∈ (emptyDB.upsert_edge
        { source_id := "a.f", target_id := "b.g", kind := "calls",
          file_path := "a.py", line := some 3 }).edges, edgeKey g ≠ edgeKey e →
         g ∈ ((emptyDB.upsert_edge
        { source_id := "a.f", target_id := "b.g", kind := "calls",
          file_path := "a.py", line := some 3 }).upsert_edge e).edges) :=
  c5_edge_uniqueness _ (Reachable.upsert_edge _ _ Reachable.empty)

/-- C8: at depth 1 the graph queries return exactly the direct edges (the
second summand degenerates to the empty list), and at depth n the direct
edges followed by the depth-(n-1) results of each neighbour:
`target_id` for dependencies, `source_id` for dependents. -/
theorem c8_graph_depth_semantics (db : DB) (node_id : String) (kind : Option String)
    (n : Int) (h : 1 ≤ n) :
    Graph.dependencies db node_id kind n =
      db.get_edges (some node_id) none kind ++
        ((db.get_edges (some node_id) none kind).map
          (fun e => Graph.dependencies db e.target_id kind (n - 1))).flatten ∧
    Graph.dependents db node_id kind n =
      db.get_edges none (some node_id) kind ++
        ((db.get_edges none (some node_id) kind).map
          (fun e => Graph.dependents db e.source_id kind (n - 1))).flatten := by
  constructor
  · rw [Graph.dependencies]
    rw [if_neg (show ¬n ≤ 0 by omega)]
    by_cases h1 : 1 < n
    · rw [if_pos h1]
    · rw [if_neg h1]
      have hn : n = 1 := by omega
      subst hn
      have hz : ∀ e ∈ db.get_edges (some node_id) none kind,
          Graph.dependencies db e.target_id kind (1 - 1) = [] := by
        intro e _
        exact dependencies_nonpos db _ kind (by norm_num)
      rw [List.map_congr_left hz, flatten_map_nil, List.append_nil]
  · rw [Graph.dependents]
    rw [if_neg (show ¬n ≤ 0 by omega)]
    by_cases h1 : 1 < n
    · rw [if_pos h1]
    · rw [if_neg h1]
      have hn : n = 1 := by omega
      subst hn
      have hz : ∀ e ∈ db.get_edges none (some node_id) kind,
          Graph.dependents db e.source_id kind (1 - 1) = [] := by
        intro e _
        exact dependents_nonpos db _ kind (by norm_num)
      rw [List.map_congr_left hz, flatten_map_nil, List.append_nil]

theorem c8_graph_depth_semantics_witness :
    Graph.dependencies emptyDB "m" none 2 =
      emptyDB.get_edges (some "m") none none ++
        ((emptyDB.get_edges (some "m") none none).map
          (fun e => Graph.dependencies emptyDB e.target_id none (2 - 1))).flatten ∧
    Graph.dependents emptyDB "m" none 2 =
      emptyDB.get_edges none (some "m") none ++
        ((emptyDB.get_edges none (some "m") none).map
          (fun e => Graph.dependents emptyDB e.source_id none (2 - 1))).flatten :=
  c8_graph_depth_semantics emptyDB "m" none 2 (by norm_num)

/-- C9: with depth ≤ 0 both traversals return the empty list for every
store state (in particular the result does not depend on the edges table:
the edges are never read). -/
theorem c9_graph_nonpositive_depth (db : DB) (node_id : String) (kind : Option String)
    (d : Int) (h : d ≤ 0) :
    Graph.dependencies db node_id kind d = [] ∧ Graph.dependents db node_id kind d = [] :=
  ⟨dependencies_nonpos db node_id kind h, dependents_nonpos db node_id kind h⟩

theorem c9_graph_nonpositive_depth_witness :
    Graph.dependencies
      { emptyDB with edges := [{ source_id := "a", target_id := "b", kind := "calls",
                                 file_path := "a.py" }] } "a" none 0 = [] ∧
    Graph.dependents
      { emptyDB with edges := [{ source_id := "a", target_id := "b", kind := "calls",
                                 file_path := "a.py" }] } "a" none 0 = [] :=
  c9_graph_nonpositive_depth _ "a" none 0 (by norm_num)

/-- C10: the debounced handler applies the ignore check to the event's full
absolute path, so an event whose path has any segment in the ignore set or
starting with a dot (anywhere, including above the project root) schedules
no debounce timer, triggers no index_file/remove_file action (actions only
run from scheduled timers), and leaves the pending-timer map unchanged. -/
theorem c10_watcher_ignore (pending : HandlerState) (path : String) (isDir : Bool)
    (h : ∃ seg ∈ pathParts path, seg ∈ IGNORE_DIRS ∨ pyStartsWith seg "." = true) :
    onCreated pending path isDir = (pending, false) ∧
    onModified pending path isDir = (pending, false) ∧
    onDeleted pending path isDir = (pending, false) := by
  have hig : shouldIgnore path = true := by
    obtain ⟨seg, hmem, hseg⟩ := h
    unfold shouldIgnore
    rw [List.any_eq_true]
    refine ⟨seg, hmem, ?_⟩
    rcases hseg with h1 | h2
    · simp [h1]
    · simp [h2]
  refine ⟨?_, ?_, ?_⟩ <;>
    · by_cases hd : (isDir || !pyEndsWith path ".py") = true <;>
        simp [onCreated, onModified, onDeleted, hd, hig]

theorem c10_watcher_ignore_witness :
    (∃ seg ∈ pathParts "/home/user/.venv/lib/mod.py",
      seg ∈ IGNORE_DIRS ∨ pyStartsWith seg "." = true) ∧
    (onCreated [("x", "index")] "/home/user/.venv/lib/mod.py" false = ([("x", "index")], false) ∧
     onModified [("x", "index")] "/home/user/.venv/lib/mod.py" false = ([("x", "index")], false) ∧
     onDeleted [("x", "index")] "/home/user/.venv/lib/mod.py" false = ([("x", "index")], false)) :=
  ⟨by decide, c10_watcher_ignore [("x", "index")] "/home/user/.venv/lib/mod.py" false (by decide)⟩

/-! ### The parser adapter's view of a tree-sitter concrete syntax tree.
Each node carries its type tag, the grammar-field name under which it sits
in its parent (tree-sitter attaches field names to parent-to-child edges),
its byte range, its 0-based start/end rows, and its children in order. -/

inductive TSNode : Type where
  | mk (ty : String) (fieldTag : Option String)
      (startByte endByte startRow endRow : Nat)
      (children : List TSNode) : TSNode

def TSNode.type : TSNode → String
  | .mk t _ _ _ _ _ _ => t

def TSNode.fieldTag : TSNode → Option String
  | .mk _ f _ _ _ _ _ => f

def TSNode.startByte : TSNode → Nat
  | .mk _ _ s _ _ _ _ => s

def TSNode.endByte : TSNode → Nat
  | .mk _ _ _ e _ _ _ => e

def TSNode.startRow : TSNode → Nat
  | .mk _ _ _ _ r _ _ => r

def TSNode.endRow : TSNode → Nat
  | .mk _ _ _ _ _ r _ => r

def TSNode.children : TSNode → List TSNode
  | .mk _ _ _ _ _ _ cs => cs

/-- tree-sitter `node.child_by_field_name(f)`. -/
def TSNode.childByFieldName (n : TSNode) (f : String) : Option TSNode :=
  n.children.find? (fun c => c.fieldTag == some f)

/-- `_node_text`: `source[start_byte:end_byte]` decoded. -/
def nodeText (source : List Char) (n : TSNode) : String :=
  String.mk ((source.drop n.startByte).take (n.endByte - n.startByte))

/-- A recursion budget for the tree walks: the number of nodes in a forest
plus one.  Every tree walk below recurses either into the tail of its list
or into the child list of a node strictly below the current head, so the
budget strictly decreases on every call and the exhausted branch of a
fueled walk is never reached when started at `tsFuel`. -/
def tsFuel : List TSNode → Nat
  | [] => 1
  | (.mk _ _ _ _ _ _ cs) :: rest => 1 + tsFuel cs + tsFuel rest

theorem tsFuel_pos (cs : List TSNode) : 1 ≤ tsFuel cs := by
  cases cs with
  | nil => simp [tsFuel]
  | cons c rest => cases c; simp [tsFuel]; omega

theorem tsFuel_cons (c : TSNode) (rest : List TSNode) :
    tsFuel (c :: rest) = 1 + tsFuel c.children + tsFuel rest := by
  cases c; simp [tsFuel, TSNode.children]

theorem tsFuel_mem_le {cs : List TSNode} {c : TSNode} (h : c ∈ cs) :
    tsFuel c.children + 1 ≤ tsFuel cs := by
  induction cs with
  | nil => cases h
  | cons x xs ih =>
    rw [tsFuel_cons]
    rcases List.mem_cons.mp h with rfl | hx
    · have := tsFuel_pos xs
      omega
    · have := ih hx
      have := tsFuel_pos x.children
      omega

theorem tsFuel_childByFieldName_le {n c : TSNode} {f : String}
    (h : n.childByFieldName f = some c) : tsFuel c.children + 1 ≤ tsFuel n.children :=
  tsFuel_mem_le (List.mem_of_find?_eq_some h)

/-! ### Indexer extraction helpers (indexer.py). -/

def squote : Char := Char.ofNat 39

def tripleSquote : String := String.mk [squote, squote, squote]

def singleSquote : String := String.mk [squote]

/-- `_extract_docstring`'s quote stripping: triple quotes, then single
quotes, otherwise the raw text. -/
def stripDocstring (raw : String) : String :=
  if pyStartsWith raw "\"\"\"" && pyEndsWith raw "\"\"\"" then
    pyStrip (pyDropRight (pyDrop raw 3) 3)
  else if pyStartsWith raw tripleSquote && pyEndsWith raw tripleSquote then
    pyStrip (pyDropRight (pyDrop raw 3) 3)
  else if (pyStartsWith raw "\"" && pyEndsWith raw "\"") ||
      (pyStartsWith raw singleSquote && pyEndsWith raw singleSquote) then
    pyStrip (pyDropRight (pyDrop raw 1) 1)
  else raw

/-- The loop of `_extract_docstring` over the block's children: the first
expression statement decides the outcome; comments and newlines are
skipped; any other statement stops the scan. -/
def docstringFromChildren (src : List Char) : List TSNode → Option String
  | [] => none
  | c :: rest =>
    if c.type == "expression_statement" then
      match c.children.find? (fun s => s.type == "string") with
      | some sub => some (stripDocstring (nodeText src sub))
      | none => none
    else if c.type == "comment" || c.type == "newline" then
      docstringFromChildren src rest
    else none

def extractDocstring (src : List Char) : Option TSNode → Option String
  | none => none
  | some body =>
    if body.type == "block" then docstringFromChildren src body.children else none

/-- `_extract_decorators`: each decorator child's text with the leading
`@` stripped. -/
def extractDecorators (src : List Char) (n : TSNode) : List String :=
  if n.type == "decorated_definition" then
    (n.children.filter (fun c => c.type == "decorator")).map
      (fun c => pyStrip (pyLstripAt (nodeText src c)))
  else []

/-- `_build_signature`: the space-joined header tokens up to the colon,
with the colon re-appended. -/
def buildSignature (src : List Char) (n : TSNode) : String :=
  pyJoin " " ((n.children.takeWhile (fun c => !(c.type == ":"))).map (nodeText src)) ++ ":"

/-- `_module_id_from_path` (the file is under the project root at every
call site, so `relative_to` is path-parts subtraction). -/
def moduleIdFromPath (file_path project_root : String) : String :=
  let rel := (pathParts file_path).drop (pathParts project_root).length
  let parts :=
    match rel.getLast? with
    | some last =>
      if last == "__init__.py" then rel.dropLast
      else rel.dropLast ++ [pyRemoveSuffix last ".py"]
    | none => []
  pyJoin "." parts

/-- Unwrapping a `decorated_definition` to its inner definition (the
wrapped loop at the top of `_extract_symbols` and `_walk_calls`); when no
inner definition exists `actual` stays the wrapper. -/
def findDefChild (n : TSNode) : TSNode :=
  if n.type == "decorated_definition" then
    match n.children.find? (fun s =>
      s.type == "function_definition" || s.type == "class_definition") with
    | some s => s
    | none => n
  else n

theorem tsFuel_findDefChild_le (n : TSNode) :
    tsFuel (findDefChild n).children ≤ tsFuel n.children := by
  unfold findDefChild
  by_cases hd : (n.type == "decorated_definition") = true
  · rw [if_pos hd]
    cases hf : n.children.find? (fun s =>
        s.type == "function_definition" || s.type == "class_definition") with
    | some s =>
      show tsFuel s.children ≤ tsFuel n.children
      have := tsFuel_mem_le (List.mem_of_find?_eq_some hf)
      omega
    | none => exact le_refl _
  · rw [if_neg hd]

/-- `dec.split("(")[0]`. -/
def decoratorHead (dec : String) : String := (pySplitChar '(' dec).headD dec

/-! ### The symbol walk (`Indexer._extract_symbols`), written as recursion
over the child list; the recursive call into a definition's body passes
the body node's type and children, exactly as the Python recursion passes
the body node itself. -/

/-- The body the symbol walk recurses into below a child: present exactly
when the (unwrapped) child is a named function or class definition. -/
def symDiveTarget (child : TSNode) : Option TSNode :=
  let actual := findDefChild child
  if actual.type == "function_definition" || actual.type == "class_definition" then
    match actual.childByFieldName "name" with
    | some _ => actual.childByFieldName "body"
    | none => none
  else none

/-- The qualified id under which the symbol walk recurses into a child's
body. -/
def symDiveScope (src : List Char) (parentId : String) (child : TSNode) : String :=
  let actual := findDefChild child
  match actual.childByFieldName "name" with
  | some nameNode => parentId ++ "." ++ nodeText src nameNode
  | none => parentId

/-- The per-child step of `Indexer._extract_symbols`: `nested` stands for
the result of the recursive walk of the definition's body (the pair
`([], [])` when the walk does not recurse, i.e. when `symDiveTarget` is
`none`). -/
def symChildStep (src : List Char) (file_path fhash : String) (now : Int)
    (parentType parentId : String) (child : TSNode)
    (nested : List NodeRecord × List EdgeRecord) :
    List NodeRecord × List EdgeRecord :=
  let actual := findDefChild child
  let decorators := extractDecorators src child
  if actual.type == "function_definition" then
    match actual.childByFieldName "name" with
    | none => ([], [])
    | some nameNode =>
      let name := nodeText src nameNode
      let node_id := parentId ++ "." ++ name
      let kind := if parentType == "block" then "method" else "function"
      let body := actual.childByFieldName "body"
      let node : NodeRecord :=
        { id := node_id, kind := kind, name := name, file_path := file_path,
          line_start := actual.startRow + 1, line_end := actual.endRow + 1,
          parent_id := some parentId,
          signature := some (buildSignature src actual),
          docstring := extractDocstring src body,
          decorators := decorators,
          file_hash := fhash, indexed_at := now }
      let decEdges : List EdgeRecord := decorators.map (fun dec =>
        { source_id := node_id, target_id := decoratorHead dec, kind := "decorates",
          file_path := file_path, line := some (actual.startRow + 1) })
      (node :: nested.1, decEdges ++ nested.2)
  else if actual.type == "class_definition" then
    match actual.childByFieldName "name" with
    | none => ([], [])
    | some nameNode =>
      let name := nodeText src nameNode
      let node_id := parentId ++ "." ++ name
      let body := actual.childByFieldName "body"
      let inhEdges : List EdgeRecord :=
        match actual.childByFieldName "superclasses" with
        | some sup =>
          (sup.children.filter (fun a => a.type == "identifier")).map (fun a =>
            { source_id := node_id, target_id := nodeText src a, kind := "inherits",
              file_path := file_path, line := some (actual.startRow + 1) })
        | none => []
      let node : NodeRecord :=
        { id := node_id, kind := "class", name := name, file_path := file_path,
          line_start := actual.startRow + 1, line_end := actual.endRow + 1,
          parent_id := some parentId,
          docstring := extractDocstring src body,
          decorators := decorators,
          file_hash := fhash, indexed_at := now }
      (node :: nested.1, inhEdges ++ nested.2)
  else ([], [])

def extractSymbolsListF (src : List Char) (file_path fhash : String) (now : Int) :
    Nat → (parentType : String) → (parentId : String) → List TSNode →
      List NodeRecord × List EdgeRecord
  | 0, _, _, _ => ([], [])
  | _ + 1, _, _, [] => ([], [])
  | fuel + 1, parentType, parentId, child :: rest =>
    let nested :=
      match symDiveTarget child with
      | some b =>
        extractSymbolsListF src file_path fhash now fuel b.type
          (symDiveScope src parentId child) b.children
      | none => ([], [])
    let this := symChildStep src file_path fhash now parentType parentId child nested
    let restResult := extractSymbolsListF src file_path fhash now fuel parentType parentId rest
    (this.1 ++ restResult.1, this.2 ++ restResult.2)

/-- `Indexer._extract_symbols` over a child list, with the structural fuel
instantiated at `tsFuel`: every recursive occurrence in
`extractSymbolsListF` is applied to a list of strictly smaller `tsFuel`
(the rest of the child list, or the children of a body nested below the
current child), so the fuel-exhausted branch is unreachable from here and
the recursion computes exactly the Python walk. -/
def extractSymbolsList (src : List Char) (file_path fhash : String) (now : Int)
    (parentType parentId : String) (cs : List TSNode) :
    List NodeRecord × List EdgeRecord :=
  extractSymbolsListF src file_path fhash now (tsFuel cs) parentType parentId cs

/-- `Indexer._extract_symbols` applied to a parent node. -/
def extractSymbols (src : List Char) (file_path fhash : String) (now : Int)
    (parent : TSNode) (parentId : String) : List NodeRecord × List EdgeRecord :=
  extractSymbolsList src file_path fhash now parent.type parentId parent.children

/-- The sequential scan of an `import_from_statement`'s children: the
first dotted name is the source module, later dotted names and aliased
imports' name fields are the imported symbols. -/
def importFromState (src : List Char) (children : List TSNode) :
    Option String × List String :=
  children.foldl (fun acc sub =>
    if sub.type == "dotted_name" then
      match acc.1 with
      | none => (some (nodeText src sub), acc.2)
      | some m => (some m, acc.2 ++ [nodeText src sub])
    else if sub.type == "aliased_import" then
      match sub.childByFieldName "name" with
      | some nn => (acc.1, acc.2 ++ [nodeText src nn])
      | none => acc
    else acc) (none, [])

/-- The per-statement step of `Indexer._extract_imports`: extend the edge
list with this top-level child's import edges. -/
def importStep (src : List Char) (module_id file_path : String)
    (es : List EdgeRecord) (child : TSNode) : List EdgeRecord :=
  if child.type == "import_statement" then
    es ++ (child.children.filter (fun sub => sub.type == "dotted_name")).map (fun sub =>
      { source_id := module_id, target_id := nodeText src sub, kind := "imports",
        file_path := file_path, line := some (child.startRow + 1) })
  else if child.type == "import_from_statement" then
    match importFromState src child.children with
    | (some module_name, imported) =>
      es ++ imported.map (fun name =>
          ({ source_id := module_id, target_id := module_name ++ "." ++ name,
             kind := "imports", file_path := file_path,
             line := some (child.startRow + 1) } : EdgeRecord))
        ++ (if imported.isEmpty then
              [({ source_id := module_id, target_id := module_name, kind := "imports",
                  file_path := file_path, line := some (child.startRow + 1) } : EdgeRecord)]
            else [])
    | (none, _) => es
  else es

/-- `Indexer._extract_imports` (top-level only; the `nodes` parameter of
the Python method is never written to and is omitted). -/
def extractImports (src : List Char) (root : TSNode) (module_id file_path : String) :
    List EdgeRecord :=
  root.children.foldl (importStep src module_id file_path) []

/-- The edge `_process_call_nodes` emits at a `call` node: the raw source
text of the call's function field (the identifier/attribute/other branches
of the Python code all take `_node_text(func_node, source)`). -/
def processCallEmit (src : List Char) (scope_id file_path : String) (node : TSNode) :
    List EdgeRecord :=
  if node.type == "call" then
    match node.childByFieldName "function" with
    | some fn =>
      [{ source_id := scope_id, target_id := nodeText src fn, kind := "calls",
         file_path := file_path, line := some (node.startRow + 1) }]
    | none => []
  else []

/-- The recursive descent of `_process_call_nodes` over a list of nodes:
emit at each node, then descend into its children. -/
def processCallListF (src : List Char) (scope_id file_path : String) :
    Nat → List TSNode → List EdgeRecord
  | 0, _ => []
  | _ + 1, [] => []
  | fuel + 1, c :: rest =>
    processCallEmit src scope_id file_path c
      ++ processCallListF src scope_id file_path fuel c.children
      ++ processCallListF src scope_id file_path fuel rest

/-- The descent with its fuel instantiated at the size of the list (every
recursive occurrence is applied to a strictly smaller list, so the
fuel-exhausted branch is unreachable from here). -/
def processCallList (src : List Char) (scope_id file_path : String)
    (cs : List TSNode) : List EdgeRecord :=
  processCallListF src scope_id file_path (tsFuel cs) cs

/-- `Indexer._process_call_nodes` on a single node, at a given budget for
the descent below it. -/
def processCallNodesF (src : List Char) (scope_id file_path : String) (fuel : Nat)
    (node : TSNode) : List EdgeRecord :=
  processCallEmit src scope_id file_path node
    ++ processCallListF src scope_id file_path fuel node.children

/-- `Indexer._walk_calls` over a child list.  The identical
function_definition and class_definition branches of the Python code are
merged; both extend the scope with the definition's name and recurse only
into its body. -/
def walkCallsListF (src : List Char) (file_path : String) :
    Nat → (scope_id : String) → List TSNode → List EdgeRecord
  | 0, _, _ => []
  | _ + 1, _, [] => []
  | fuel + 1, scope_id, child :: rest =>
    let actual := findDefChild child
    let this :=
      if actual.type == "function_definition" || actual.type == "class_definition" then
        match actual.childByFieldName "name" with
        | some nameNode =>
          let new_scope := scope_id ++ "." ++ nodeText src nameNode
          match actual.childByFieldName "body" with
          | some b => walkCallsListF src file_path fuel new_scope b.children
          | none => []
        | none => []
      else
        (if child.type == "call" ||
            (child.type == "expression_statement" && decide (0 < child.children.length)) then
          processCallNodesF src scope_id file_path fuel child
        else [])
          ++ walkCallsListF src file_path fuel scope_id child.children
    this ++ walkCallsListF src file_path fuel scope_id rest

/-- The walk with its fuel instantiated at the size of the list (every
recursive occurrence is applied to a strictly smaller list, so the
fuel-exhausted branch is unreachable from here). -/
def walkCallsList (src : List Char) (file_path : String) (scope_id : String)
    (cs : List TSNode) : List EdgeRecord :=
  walkCallsListF src file_path (tsFuel cs) scope_id cs

/-- `Indexer._extract_calls`. -/
def extractCalls (src : List Char) (root : TSNode) (module_id file_path : String) :
    List EdgeRecord :=
  walkCallsList src file_path module_id root.children

/-- The node and edge batches a non-skipped `index_file` writes: the module
node followed by the symbol walk, and the symbol edges followed by the import
and call edges. -/
def indexNodesEdges (src : List Char) (tree : TSNode) (fp_str module_id fhash : String)
    (now : Int) : List NodeRecord × List EdgeRecord :=
  let root := tree
  let module_node : NodeRecord :=
    { id := module_id, kind := "module",
      name := (pySplitChar (Char.ofNat 46) module_id).getLastD module_id,
      file_path := fp_str, line_start := root.startRow + 1, line_end := root.endRow + 1,
      file_hash := fhash, indexed_at := now }
  let sym := extractSymbols src fp_str fhash now root module_id
  let impEdges := extractImports src root module_id fp_str
  let callEdges := extractCalls src root module_id fp_str
  (module_node :: sym.1, sym.2 ++ impEdges ++ callEdges)

/-- `Indexer.index_file`.  Reading the file, hashing its bytes and parsing
are external effects, so the hash, the bytes and the parsed root node are
inputs; the returned pair is (extracted nodes, store after the call). -/
def Indexer.index_file (db : DB) (project_root fp_str fhash : String)
    (src : List Char) (tree : TSNode) (now : Int) (force : Bool) :
    List NodeRecord × DB :=
  if !force && (match db.get_indexed_file fp_str with
                | some existing => existing.file_hash == fhash
                | none => false) then
    (db.list_nodes (some fp_str) none none none, db)
  else
    let module_id := moduleIdFromPath fp_str project_root
    let ne := indexNodesEdges src tree fp_str module_id fhash now
    let db1 := db.delete_nodes_for_file fp_str
    let db2 := db1.delete_edges_for_file fp_str
    let db3 := db2.upsert_nodes ne.1
    let db4 := db3.upsert_edges ne.2
    let db5 := db4.upsert_indexed_file
      { file_path := fp_str, file_hash := fhash, indexed_at := now,
        node_count := ne.1.length }
    (ne.1, db5)

/-- `Indexer.remove_file`. -/
def Indexer.remove_file (db : DB) (fp_str : String) : DB :=
  ((db.delete_nodes_for_file fp_str).delete_edges_for_file fp_str).delete_indexed_file fp_str

/-- The committed store states a concurrent reader can observe during a
non-skipped `index_file` call: the pre-state and the state after each of
the five `Database` method calls, each of which runs `conn.commit()` and
so ends its own SQLite transaction. -/
def Indexer.index_file_commits (db : DB) (project_root fp_str fhash : String)
    (src : List Char) (tree : TSNode) (now : Int) : List DB :=
  let module_id := moduleIdFromPath fp_str project_root
  let ne := indexNodesEdges src tree fp_str module_id fhash now
  let db1 := db.delete_nodes_for_file fp_str
  let db2 := db1.delete_edges_for_file fp_str
  let db3 := db2.upsert_nodes ne.1
  let db4 := db3.upsert_edges ne.2
  let db5 := db4.upsert_indexed_file
    { file_path := fp_str, file_hash := fhash, indexed_at := now,
      node_count := ne.1.length }
  [db, db1, db2, db3, db4, db5]

/-! ### Structural lemmas about the extraction walks. -/

theorem symChildStep_nodes {src : List Char} {fp fh : String} {now : Int}
    {pty pid : String} {child : TSNode} {nested : List NodeRecord × List EdgeRecord}
    {n : NodeRecord} (hn : n ∈ (symChildStep src fp fh now pty pid child nested).1) :
    (n.file_path = fp ∧ n.parent_id = some pid ∧
      (n.kind = "class" ∨ n.kind = if pty == "block" then "method" else "function"))
    ∨ n ∈ nested.1 := by
  simp only [symChildStep] at hn
  split at hn
  · split at hn
    · simp at hn
    · rcases List.mem_cons.mp hn with rfl | h
      · exact Or.inl ⟨rfl, rfl, Or.inr rfl⟩
      · exact Or.inr h
  · split at hn
    · split at hn
      · simp at hn
      · rcases List.mem_cons.mp hn with rfl | h
        · exact Or.inl ⟨rfl, rfl, Or.inl rfl⟩
        · exact Or.inr h
    · simp at hn

theorem symChildStep_edges {src : List Char} {fp fh : String} {now : Int}
    {pty pid : String} {child : TSNode} {nested : List NodeRecord × List EdgeRecord}
    {e : EdgeRecord} (he : e ∈ (symChildStep src fp fh now pty pid child nested).2) :
    e.file_path = fp ∨ e ∈ nested.2 := by
  simp only [symChildStep] at he
  split at he
  · split at he
    · simp at he
    · rcases List.mem_append.mp he with h | h
      · obtain ⟨d, -, rfl⟩ := List.mem_map.mp h
        exact Or.inl rfl
      · exact Or.inr h
  · split at he
    · split at he
      · simp at he
      · rcases List.mem_append.mp he with h | h
        · split at h
          · obtain ⟨a, -, rfl⟩ := List.mem_map.mp h
            exact Or.inl rfl
          · simp at h
        · exact Or.inr h
    · simp at he

theorem extractSymbolsListF_paths (src : List Char) (fp fh : String) (now : Int) :
    ∀ (fuel : Nat) (pty pid : String) (cs : List TSNode),
      (∀ n ∈ (extractSymbolsListF src fp fh now fuel pty pid cs).1, n.file_path = fp) ∧
      (∀ e ∈ (extractSymbolsListF src fp fh now fuel pty pid cs).2, e.file_path = fp) := by
  intro fuel
  induction fuel with
  | zero =>
    intro pty pid cs
    constructor <;> intro x hx <;> simp [extractSymbolsListF] at hx
  | succ f ih =>
    intro pty pid cs
    cases cs with
    | nil => constructor <;> intro x hx <;> simp [extractSymbolsListF] at hx
    | cons child rest =>
      constructor
      · intro n hn
        simp only [extractSymbolsListF] at hn
        rcases List.mem_append.mp hn with hn | hn
        · rcases symChildStep_nodes hn with ⟨hp, -, -⟩ | hn
          · exact hp
          · cases hd : symDiveTarget child with
            | none => rw [hd] at hn; simp at hn
            | some b => rw [hd] at hn; exact (ih _ _ _).1 n hn
        · exact (ih _ _ _).1 n hn
      · intro e he
        simp only [extractSymbolsListF] at he
        rcases List.mem_append.mp he with he | he
        · rcases symChildStep_edges he with hp | he
          · exact hp
          · cases hd : symDiveTarget child with
            | none => rw [hd] at he; simp at he
            | some b => rw [hd] at he; exact (ih _ _ _).2 e he
        · exact (ih _ _ _).2 e he

theorem importStep_paths {src : List Char} {mid fp : String}
    {es : List EdgeRecord} {child : TSNode}
    (hes : ∀ e ∈ es, e.file_path = fp) :
    ∀ e ∈ importStep src mid fp es child, e.file_path = fp := by
  intro e he
  simp only [importStep] at he
  split at he
  · rcases List.mem_append.mp he with h | h
    · exact hes e h
    · obtain ⟨d, -, rfl⟩ := List.mem_map.mp h
      rfl
  · split at he
    · split at he
      · rcases List.mem_append.mp he with h | h
        · rcases List.mem_append.mp h with h | h
          · exact hes e h
          · obtain ⟨d, -, rfl⟩ := List.mem_map.mp h
            rfl
        · split at h
          · rcases List.mem_singleton.mp h with rfl
            rfl
          · simp at h
      · exact hes e he
    · exact hes e he

theorem extractImports_paths (src : List Char) (root : TSNode) (mid fp : String) :
    ∀ e ∈ extractImports src root mid fp, e.file_path = fp := by
  unfold extractImports
  generalize root.children = cs
  have main : ∀ (cs : List TSNode) (acc : List EdgeRecord),
      (∀ e ∈ acc, e.file_path = fp) →
      ∀ e ∈ cs.foldl (importStep src mid fp) acc, e.file_path = fp := by
    intro cs
    induction cs with
    | nil => intro acc hacc; exact hacc
    | cons c rest ih =>
      intro acc hacc
      rw [List.foldl_cons]
      exact ih _ (importStep_paths hacc)
  exact main cs [] (by intro e he; simp at he)

theorem processCallListF_paths (src : List Char) (scope fp : String) :
    ∀ (fuel : Nat) (cs : List TSNode),
      ∀ e ∈ processCallListF src scope fp fuel cs, e.file_path = fp := by
  intro fuel
  induction fuel with
  | zero => intro cs e he; simp [processCallListF] at he
  | succ f ih =>
    intro cs e he
    cases cs with
    | nil => simp [processCallListF] at he
    | cons c rest =>
      simp only [processCallListF] at he
      rcases List.mem_append.mp he with he | he
      · rcases List.mem_append.mp he with he | he
        · simp only [processCallEmit] at he
          split at he
          · split at he
            · rcases List.mem_singleton.mp he with rfl
              rfl
            · simp at he
          · simp at he
        · exact ih _ e he
      · exact ih _ e he

theorem walkCallsListF_paths (src : List Char) (fp : String) :
    ∀ (fuel : Nat) (scope : String) (cs : List TSNode),
      ∀ e ∈ walkCallsListF src fp fuel scope cs, e.file_path = fp := by
  intro fuel
  induction fuel with
  | zero => intro scope cs e he; simp [walkCallsListF] at he
  | succ f ih =>
    intro scope cs e he
    cases cs with
    | nil => simp [walkCallsListF] at he
    | cons child rest =>
      simp only [walkCallsListF] at he
      rcases List.mem_append.mp he with he | he
      · split at he
        · split at he
          · split at he
            · exact ih _ _ e he
            · simp at he
          · simp at he
        · rcases List.mem_append.mp he with he | he
          · split at he
            · simp only [processCallNodesF] at he
              rcases List.mem_append.mp he with he | he
              · simp only [processCallEmit] at he
                split at he
                · split at he
                  · rcases List.mem_singleton.mp he with rfl
                    rfl
                  · simp at he
                · simp at he
              · exact processCallListF_paths src _ fp f _ e he
            · simp at he
          · exact ih _ _ e he
      · exact ih _ _ e he

theorem indexNodesEdges_paths (src : List Char) (tree : TSNode)
    (fp mid fh : String) (now : Int) :
    (∀ n ∈ (indexNodesEdges src tree fp mid fh now).1, n.file_path = fp) ∧
    (∀ e ∈ (indexNodesEdges src tree fp mid fh now).2, e.file_path = fp) := by
  constructor
  · intro n hn
    simp only [indexNodesEdges, extractSymbols, extractSymbolsList] at hn
    rcases List.mem_cons.mp hn with rfl | hn
    · rfl
    · exact (extractSymbolsListF_paths src fp fh now _ _ _ _).1 n hn
  · intro e he
    simp only [indexNodesEdges, extractSymbols, extractSymbolsList,
      extractCalls, walkCallsList] at he
    rcases List.mem_append.mp he with he | he
    · rcases List.mem_append.mp he with he | he
      · exact (extractSymbolsListF_paths src fp fh now _ _ _ _).2 e he
      · exact extractImports_paths src tree mid fp e he
    · exact walkCallsListF_paths src fp _ _ _ e he

/-- The file-scoped view of the store a reader can query: the Node rows,
Edge rows and IndexedFile row for one path. -/
def nodesForFile (db : DB) (fp : String) : List NodeRecord :=
  db.nodes.filter (fun n => n.file_path == fp)

def edgesForFile (db : DB) (fp : String) : List EdgeRecord :=
  db.edges.filter (fun e => e.file_path == fp)

def viewFile (db : DB) (fp : String) :
    List NodeRecord × List EdgeRecord × Option IndexedFile :=
  (nodesForFile db fp, edgesForFile db fp, db.get_indexed_file fp)

/-- The Node rows derived from the current bytes of a file: the batch the
indexer builds from the parse tree, collapsed by primary key exactly as
the batched upsert collapses it. -/
def derivedNodeRows (src : List Char) (tree : TSNode) (fp mid fh : String)
    (now : Int) : List NodeRecord :=
  (indexNodesEdges src tree fp mid fh now).1.foldl upsertNodeRow []

/-- The Edge rows derived from the current bytes of a file, collapsed by
the (source_id, target_id, kind) unique key exactly as the batched edge
upsert collapses them. -/
def derivedEdgeRows (src : List Char) (tree : TSNode) (fp mid fh : String)
    (now : Int) : List EdgeRecord :=
  (indexNodesEdges src tree fp mid fh now).2.foldl upsertEdgeRow []

theorem lastWithId_mem {ns : List NodeRecord} {i : String} {m : NodeRecord}
    (h : lastWithId ns i = some m) : m ∈ ns := by
  induction ns with
  | nil => simp [lastWithId] at h
  | cons x xs ih =>
    rw [lastWithId_cons] at h
    cases hlast : lastWithId xs i with
    | some r =>
      rw [hlast] at h
      exact List.mem_cons_of_mem x (ih (hlast.trans h))
    | none =>
      rw [hlast] at h
      simp only at h
      split at h
      · exact (Option.some.inj h) ▸ List.mem_cons_self x xs
      · simp at h

theorem lastWithKey_mem {es : List EdgeRecord} {k : String × String × String}
    {m : EdgeRecord} (h : lastWithKey es k = some m) : m ∈ es := by
  induction es with
  | nil => simp [lastWithKey] at h
  | cons x xs ih =>
    rw [lastWithKey_cons] at h
    cases hlast : lastWithKey xs k with
    | some r =>
      rw [hlast] at h
      exact List.mem_cons_of_mem x (ih (hlast.trans h))
    | none =>
      rw [hlast] at h
      simp only at h
      split at h
      · exact (Option.some.inj h) ▸ List.mem_cons_self x xs
      · simp at h

/-- Upserting a batch of rows that all carry file_path = fp over a base
with no fp rows: the fp rows of the result are exactly the batch collapsed
by primary key into an empty table. -/
theorem foldl_upsertNodeRow_path_iff {base ns : List NodeRecord} {fp : String}
    (hbase : ∀ m ∈ base, m.file_path ≠ fp) (hns : ∀ m ∈ ns, m.file_path = fp)
    (m : NodeRecord) :
    (m ∈ ns.foldl upsertNodeRow base ∧ m.file_path = fp) ↔
      m ∈ ns.foldl upsertNodeRow [] := by
  rw [mem_foldl_upsertNodeRow, mem_foldl_upsertNodeRow]
  constructor
  · rintro ⟨h1 | ⟨hb, -⟩, hp⟩
    · exact Or.inl h1
    · exact absurd hp (hbase m hb)
  · rintro (h | ⟨hm, -⟩)
    · exact ⟨Or.inl h, hns m (lastWithId_mem h)⟩
    · simp at hm

theorem foldl_upsertEdgeRow_path_iff {base es : List EdgeRecord} {fp : String}
    (hbase : ∀ m ∈ base, m.file_path ≠ fp) (hes : ∀ m ∈ es, m.file_path = fp)
    (m : EdgeRecord) :
    (m ∈ es.foldl upsertEdgeRow base ∧ m.file_path = fp) ↔
      m ∈ es.foldl upsertEdgeRow [] := by
  rw [mem_foldl_upsertEdgeRow, mem_foldl_upsertEdgeRow]
  constructor
  · rintro ⟨h1 | ⟨hb, -⟩, hp⟩
    · exact Or.inl h1
    · exact absurd hp (hbase m hb)
  · rintro (h | ⟨hm, -⟩)
    · exact ⟨Or.inl h, hes m (lastWithKey_mem h)⟩
    · simp at hm

theorem index_file_not_skipped (db : DB) (project_root fp fhash : String)
    (src : List Char) (tree : TSNode) (now : Int) (force : Bool)
    (hcond : (!force && (match db.get_indexed_file fp with
      | some existing => existing.file_hash == fhash
      | none => false)) = false) :
    Indexer.index_file db project_root fp fhash src tree now force =
      ((indexNodesEdges src tree fp (moduleIdFromPath fp project_root) fhash now).1,
        ((((db.delete_nodes_for_file fp).delete_edges_for_file fp).upsert_nodes
            (indexNodesEdges src tree fp (moduleIdFromPath fp project_root) fhash now).1).upsert_edges
            (indexNodesEdges src tree fp (moduleIdFromPath fp project_root) fhash now).2).upsert_indexed_file
          { file_path := fp, file_hash := fhash, indexed_at := now,
            node_count := (indexNodesEdges src tree fp
              (moduleIdFromPath fp project_root) fhash now).1.length }) := by
  unfold Indexer.index_file
  rw [if_neg (by simp [hcond])]

/-- C1: after a non-skipped `index_file(P)` the Node rows and Edge rows
with file_path = P are exactly the rows derived from the current bytes of
P (the parse tree's extraction batch, collapsed by the store's primary
key / unique triple), and after `remove_file(P)` no Node, Edge or
IndexedFile row references P. -/
theorem c1_purge_completeness (db : DB) (project_root fp fhash : String)
    (src : List Char) (tree : TSNode) (now : Int) (force : Bool)
    (hskip : force = true ∨ ∀ ex, db.get_indexed_file fp = some ex → ex.file_hash ≠ fhash) :
    (∀ n : NodeRecord,
      (n ∈ (Indexer.index_file db project_root fp fhash src tree now force).2.nodes ∧
        n.file_path = fp) ↔
      n ∈ derivedNodeRows src tree fp (moduleIdFromPath fp project_root) fhash now) ∧
    (∀ e : EdgeRecord,
      (e ∈ (Indexer.index_file db project_root fp fhash src tree now force).2.edges ∧
        e.file_path = fp) ↔
      e ∈ derivedEdgeRows src tree fp (moduleIdFromPath fp project_root) fhash now) ∧
    (∀ (db₀ : DB) (p : String),
      nodesForFile (Indexer.remove_file db₀ p) p = [] ∧
      edgesForFile (Indexer.remove_file db₀ p) p = [] ∧
      (Indexer.remove_file db₀ p).get_indexed_file p = none) := by
  have hcond : (!force && (match db.get_indexed_file fp with
      | some existing => existing.file_hash == fhash
      | none => false)) = false := by
    rcases hskip with hf | hne
    · rw [hf]; simp
    · cases hex : db.get_indexed_file fp with
      | none => simp [hex]
      | some ex =>
        have h2 : (ex.file_hash == fhash) = false := by
          simp [hne ex hex]
        simp [hex, h2]
  rw [index_file_not_skipped db project_root fp fhash src tree now force hcond]
  refine ⟨?_, ?_, ?_⟩
  · intro n
    have hbase : ∀ m ∈ ((db.delete_nodes_for_file fp).delete_edges_for_file fp).nodes,
        m.file_path ≠ fp := by
      intro m hm
      exact delete_nodes_for_file_no_path (show m ∈ (db.delete_nodes_for_file fp).nodes from hm)
    exact foldl_upsertNodeRow_path_iff hbase
      (indexNodesEdges_paths src tree fp (moduleIdFromPath fp project_root) fhash now).1 n
  · intro e
    have hbase : ∀ m ∈ ((db.delete_nodes_for_file fp).delete_edges_for_file fp).edges,
        m.file_path ≠ fp := by
      intro m hm
      exact delete_edges_for_file_no_path hm
    exact foldl_upsertEdgeRow_path_iff hbase
      (indexNodesEdges_paths src tree fp (moduleIdFromPath fp project_root) fhash now).2 e
  · intro db₀ p
    refine ⟨?_, ?_, ?_⟩
    · unfold nodesForFile
      rw [List.filter_eq_nil_iff]
      intro a ha
      have ha' : a ∈ (db₀.delete_nodes_for_file p).nodes := ha
      simpa using delete_nodes_for_file_no_path ha'
    · unfold edgesForFile
      rw [List.filter_eq_nil_iff]
      intro a ha
      have ha' : a ∈ ((db₀.delete_nodes_for_file p).delete_edges_for_file p).edges := ha
      simpa using delete_edges_for_file_no_path ha'
    · unfold Indexer.remove_file DB.get_indexed_file DB.delete_indexed_file
      rw [List.find?_eq_none]
      intro x hx
      have := List.of_mem_filter hx
      simpa using this

theorem c1_purge_completeness_witness :
    ((emptyDB : DB).get_indexed_file "/p/m.py" = none) ∧
    ((∀ n : NodeRecord,
      (n ∈ (Indexer.index_file emptyDB "/p" "/p/m.py" "h" []
          (TSNode.mk "module" none 0 0 0 0 []) 7 true).2.nodes ∧
        n.file_path = "/p/m.py") ↔
      n ∈ derivedNodeRows [] (TSNode.mk "module" none 0 0 0 0 []) "/p/m.py"
        (moduleIdFromPath "/p/m.py" "/p") "h" 7) ∧
    (∀ e : EdgeRecord,
      (e ∈ (Indexer.index_file emptyDB "/p" "/p/m.py" "h" []
          (TSNode.mk "module" none 0 0 0 0 []) 7 true).2.edges ∧
        e.file_path = "/p/m.py") ↔
      e ∈ derivedEdgeRows [] (TSNode.mk "module" none 0 0 0 0 []) "/p/m.py"
        (moduleIdFromPath "/p/m.py" "/p") "h" 7) ∧
    (∀ (db₀ : DB) (p : String),
      nodesForFile (Indexer.remove_file db₀ p) p = [] ∧
      edgesForFile (Indexer.remove_file db₀ p) p = [] ∧
      (Indexer.remove_file db₀ p).get_indexed_file p = none)) :=
  ⟨rfl, c1_purge_completeness emptyDB "/p" "/p/m.py" "h" []
    (TSNode.mk "module" none 0 0 0 0 []) 7 true (Or.inl rfl)⟩

/-- C3: when an IndexedFile row for P exists with the same content hash and
force is false, `index_file` returns the stored nodes for P and leaves the
store untouched; the result does not depend on the bytes, the parse tree,
the timestamp or the project root, reflecting that the file is not
re-parsed. -/
theorem c3_incremental_skip (db : DB) (project_root fp fhash : String)
    (src : List Char) (tree : TSNode) (now : Int) (ex : IndexedFile)
    (hex : db.get_indexed_file fp = some ex) (hhash : ex.file_hash = fhash) :
    Indexer.index_file db project_root fp fhash src tree now false =
      (db.list_nodes (some fp) none none none, db) ∧
    ∀ (src' : List Char) (tree' : TSNode) (now' : Int) (project_root' : String),
      Indexer.index_file db project_root' fp fhash src' tree' now' false =
        Indexer.index_file db project_root fp fhash src tree now false := by
  have hcond : (!false && (match db.get_indexed_file fp with
      | some existing => existing.file_hash == fhash
      | none => false)) = true := by
    rw [hex]
    simp [hhash]
  constructor
  · unfold Indexer.index_file
    rw [if_pos hcond]
  · intro src' tree' now' project_root'
    unfold Indexer.index_file
    rw [if_pos hcond, if_pos hcond]

theorem c3_incremental_skip_witness :
    ({ emptyDB with
        nodes := [{ id := "m", kind := "module", name := "m", file_path := "/p/m.py",
                    line_start := 1, line_end := 1, file_hash := "h", indexed_at := 5 }],
        indexed_files := [{ file_path := "/p/m.py", file_hash := "h", indexed_at := 5,
                            node_count := 1 }] } : DB).get_indexed_file "/p/m.py" =
      some { file_path := "/p/m.py", file_hash := "h", indexed_at := 5, node_count := 1 } ∧
    ("h" : String) = "h" ∧
    (Indexer.index_file
      { emptyDB with
        nodes := [{ id := "m", kind := "module", name := "m", file_path := "/p/m.py",
                    line_start := 1, line_end := 1, file_hash := "h", indexed_at := 5 }],
        indexed_files := [{ file_path := "/p/m.py", file_hash := "h", indexed_at := 5,
                            node_count := 1 }] } "/p" "/p/m.py" "h" []
        (TSNode.mk "module" none 0 0 0 0 []) 9 false =
      (({ emptyDB with
          nodes := [{ id := "m", kind := "module", name := "m", file_path := "/p/m.py",
                      line_start := 1, line_end := 1, file_hash := "h", indexed_at := 5 }],
          indexed_files := [{ file_path := "/p/m.py", file_hash := "h", indexed_at := 5,
                              node_count := 1 }] } : DB).list_nodes
        (some "/p/m.py") none none none,
       { emptyDB with
          nodes := [{ id := "m", kind := "module", name := "m", file_path := "/p/m.py",
                      line_start := 1, line_end := 1, file_hash := "h", indexed_at := 5 }],
          indexed_files := [{ file_path := "/p/m.py", file_hash := "h", indexed_at := 5,
                              node_count := 1 }] }) ∧
    ∀ (src' : List Char) (tree' : TSNode) (now' : Int) (project_root' : String),
      Indexer.index_file
        { emptyDB with
          nodes := [{ id := "m", kind := "module", name := "m", file_path := "/p/m.py",
                      line_start := 1, line_end := 1, file_hash := "h", indexed_at := 5 }],
          indexed_files := [{ file_path := "/p/m.py", file_hash := "h", indexed_at := 5,
                              node_count := 1 }] } project_root' "/p/m.py" "h" src' tree' now' false =
        Indexer.index_file
          { emptyDB with
            nodes := [{ id := "m", kind := "module", name := "m", file_path := "/p/m.py",
                        line_start := 1, line_end := 1, file_hash := "h", indexed_at := 5 }],
            indexed_files := [{ file_path := "/p/m.py", file_hash := "h", indexed_at := 5,
                                node_count := 1 }] } "/p" "/p/m.py" "h" []
          (TSNode.mk "module" none 0 0 0 0 []) 9 false) :=
  ⟨rfl, rfl,
    c3_incremental_skip _ "/p" "/p/m.py" "h" [] (TSNode.mk "module" none 0 0 0 0 []) 9
      { file_path := "/p/m.py", file_hash := "h", indexed_at := 5, node_count := 1 }
      rfl rfl⟩

/-- C2 amended: within one non-skipped `index_file` the purge and the
batched upserts run as five separately committed transactions, in order
(delete nodes, delete edges, upsert nodes, upsert edges, upsert
indexed-file).  A concurrent reader therefore observes one of the six
committed states; in particular, right after the purge commits the file's
Node and Edge rows are absent while the stale IndexedFile row is still
present — a state that is neither the pre-state nor the post-state.  Only
each individual batch is atomic; the last committed state is exactly the
state `index_file` returns. -/
theorem c2_commit_sequence (db : DB) (project_root fp fhash : String)
    (src : List Char) (tree : TSNode) (now : Int) :
    Indexer.index_file_commits db project_root fp fhash src tree now =
      [db,
       db.delete_nodes_for_file fp,
       (db.delete_nodes_for_file fp).delete_edges_for_file fp,
       ((db.delete_nodes_for_file fp).delete_edges_for_file fp).upsert_nodes
         (indexNodesEdges src tree fp (moduleIdFromPath fp project_root) fhash now).1,
       (((db.delete_nodes_for_file fp).delete_edges_for_file fp).upsert_nodes
         (indexNodesEdges src tree fp (moduleIdFromPath fp project_root) fhash now).1).upsert_edges
         (indexNodesEdges src tree fp (moduleIdFromPath fp project_root) fhash now).2,
       ((((db.delete_nodes_for_file fp).delete_edges_for_file fp).upsert_nodes
         (indexNodesEdges src tree fp (moduleIdFromPath fp project_root) fhash now).1).upsert_edges
         (indexNodesEdges src tree fp (moduleIdFromPath fp project_root) fhash now).2).upsert_indexed_file
         { file_path := fp, file_hash := fhash, indexed_at := now,
           node_count := (indexNodesEdges src tree fp
             (moduleIdFromPath fp project_root) fhash now).1.length }] ∧
    nodesForFile ((db.delete_nodes_for_file fp).delete_edges_for_file fp) fp = [] ∧
    edgesForFile ((db.delete_nodes_for_file fp).delete_edges_for_file fp) fp = [] ∧
    (Indexer.index_file_commits db project_root fp fhash src tree now).getLast? =
      some (Indexer.index_file db project_root fp fhash src tree now true).2 := by
  refine ⟨rfl, ?_, ?_, ?_⟩
  · unfold nodesForFile
    rw [List.filter_eq_nil_iff]
    intro a ha
    have ha2 : a ∈ (db.delete_nodes_for_file fp).nodes := ha
    simpa using delete_nodes_for_file_no_path ha2
  · unfold edgesForFile
    rw [List.filter_eq_nil_iff]
    intro a ha
    simpa using delete_edges_for_file_no_path ha
  · rw [index_file_not_skipped db project_root fp fhash src tree now true (by simp)]
    rfl

/-- The store before the atomicity counterexample's re-indexing: one
module node and an IndexedFile row from an earlier indexing of
`/p/m.py` with different bytes (hash "h1"). -/
def dbC2 : DB :=
  { nodes := [{ id := "m", kind := "module", name := "m", file_path := "/p/m.py",
                line_start := 1, line_end := 1, file_hash := "h1", indexed_at := 0 }],
    edges := [], observations := [],
    indexed_files := [{ file_path := "/p/m.py", file_hash := "h1", indexed_at := 0,
                        node_count := 1 }] }

/-- An empty module parse tree (the re-indexed file's new bytes). -/
def treeC2 : TSNode := .mk "module" none 0 0 0 0 []

/-- C2 counterexample: during `index_file` on a changed file the committed
state right after the purge (the third state of the commit trace) shows a
file view — Node rows, Edge rows, IndexedFile row for the path — that
differs both from the pre-state's and from the final state's, so a
concurrent reader can observe a partial mixture, contradicting the claim
that purge and upserts form a single transaction. -/
theorem c2_atomicity_counterexample :
    ((Indexer.index_file_commits dbC2 "/p" "/p/m.py" "h2" [] treeC2 1).get? 0) =
      some dbC2 ∧
    ((Indexer.index_file_commits dbC2 "/p" "/p/m.py" "h2" [] treeC2 1).get? 5).map
        (fun s => viewFile s "/p/m.py") =
      some (viewFile (Indexer.index_file dbC2 "/p" "/p/m.py" "h2" [] treeC2 1 true).2
        "/p/m.py") ∧
    ((Indexer.index_file_commits dbC2 "/p" "/p/m.py" "h2" [] treeC2 1).get? 2).map
        (fun s => viewFile s "/p/m.py") ≠ some (viewFile dbC2 "/p/m.py") ∧
    ((Indexer.index_file_commits dbC2 "/p" "/p/m.py" "h2" [] treeC2 1).get? 2).map
        (fun s => viewFile s "/p/m.py") ≠
      ((Indexer.index_file_commits dbC2 "/p" "/p/m.py" "h2" [] treeC2 1).get? 5).map
        (fun s => viewFile s "/p/m.py") := by
  have hfuel : tsFuel ([] : List TSNode) = 1 := by simp [tsFuel]
  simp only [Indexer.index_file_commits, Indexer.index_file, indexNodesEdges,
    extractSymbols, extractSymbolsList, extractCalls, walkCallsList, treeC2,
    TSNode.children, hfuel]
  decide

theorem symChildStep_function_mem {src : List Char} {fp fh : String} {now : Int}
    {pty pid : String} {child nameNode : TSNode}
    {nested : List NodeRecord × List EdgeRecord}
    (hty : (findDefChild child).type = "function_definition")
    (hname : (findDefChild child).childByFieldName "name" = some nameNode) :
    ∃ n ∈ (symChildStep src fp fh now pty pid child nested).1,
      n.id = pid ++ "." ++ nodeText src nameNode ∧
      n.kind = (if pty == "block" then "method" else "function") := by
  simp only [symChildStep, hty, hname]
  exact ⟨_, List.mem_cons_self _ _, rfl, rfl⟩

theorem extractSymbolsListF_fn_kind (src : List Char) (fp fh : String) (now : Int) :
    ∀ (fuel : Nat) (pty pid : String) (cs : List TSNode) (child nameNode : TSNode),
      child ∈ cs → tsFuel cs ≤ fuel →
      (findDefChild child).type = "function_definition" →
      (findDefChild child).childByFieldName "name" = some nameNode →
      ∃ n ∈ (extractSymbolsListF src fp fh now fuel pty pid cs).1,
        n.id = pid ++ "." ++ nodeText src nameNode ∧
        n.kind = (if pty == "block" then "method" else "function") := by
  intro fuel
  induction fuel with
  | zero =>
    intro pty pid cs child nameNode hmem hfuel _ _
    have := tsFuel_pos cs
    omega
  | succ f ih =>
    intro pty pid cs child nameNode hmem hfuel hty hname
    cases cs with
    | nil => cases hmem
    | cons x rest =>
      simp only [extractSymbolsListF]
      rcases List.mem_cons.mp hmem with rfl | hmem
      · obtain ⟨n, hn, hid, hkind⟩ := symChildStep_function_mem hty hname
        exact ⟨n, List.mem_append.mpr (Or.inl hn), hid, hkind⟩
      · have hfe : tsFuel rest ≤ f := by
          rw [tsFuel_cons] at hfuel
          have := tsFuel_pos x.children
          omega
        obtain ⟨n, hn, hid, hkind⟩ := ih pty pid rest child nameNode hmem hfe hty hname
        exact ⟨n, List.mem_append.mpr (Or.inr hn), hid, hkind⟩

/-- C4 amended: for every function_definition child processed by the
symbol walk of a parent node, the persisted node's kind is "method" when
the parent is any block — a class body *or a function/method body* — and
"function" exactly when the walk is at the module root.  (The original
claim's "class body only" fails: the code tests `parent_node.type ==
"block"`, which is also true for function bodies.) -/
theorem c4_kind_assignment_amended (src : List Char) (file_path fhash : String)
    (now : Int) (parent : TSNode) (pid : String) (child nameNode : TSNode)
    (hmem : child ∈ parent.children)
    (hty : (findDefChild child).type = "function_definition")
    (hname : (findDefChild child).childByFieldName "name" = some nameNode) :
    ∃ n ∈ (extractSymbols src file_path fhash now parent pid).1,
      n.id = pid ++ "." ++ nodeText src nameNode ∧
      n.kind = (if parent.type == "block" then "method" else "function") :=
  extractSymbolsListF_fn_kind src file_path fhash now (tsFuel parent.children)
    parent.type pid parent.children child nameNode hmem (le_refl _) hty hname

/-- The parse tree of `"def outer():\n    def inner():\n        pass\n"`
as produced by the tree-sitter Python grammar: a nested function
definition whose immediate syntactic enclosure is the body (a block) of
the outer function — not a class body. -/
def fdInnerC4 : TSNode := .mk "function_definition" none 17 42 1 2 [
  .mk "def" none 17 20 1 1 [],
  .mk "identifier" (some "name") 21 26 1 1 [],
  .mk "parameters" (some "parameters") 26 28 1 1 [],
  .mk ":" none 28 29 1 1 [],
  .mk "block" (some "body") 38 42 2 2 [ .mk "pass_statement" none 38 42 2 2 [] ]
]

def fdOuterC4 : TSNode := .mk "function_definition" none 0 42 0 2 [
  .mk "def" none 0 3 0 0 [],
  .mk "identifier" (some "name") 4 9 0 0 [],
  .mk "parameters" (some "parameters") 9 11 0 0 [],
  .mk ":" none 11 12 0 0 [],
  .mk "block" (some "body") 17 42 1 2 [ fdInnerC4 ]
]

def treeC4 : TSNode := .mk "module" none 0 43 0 3 [ fdOuterC4 ]

def srcC4 : List Char := "def outer():\n    def inner():\n        pass\n".data

/-- C4 counterexample: the symbol walk persists the nested function
`inner` — whose immediate syntactic enclosure is the body of the function
`outer` (kind "function" in the same output), not a class body — with
kind "method", while the claim requires kind "function" there. -/
theorem c4_kind_assignment_counterexample :
    (((extractSymbols srcC4 "/p/m.py" "h" 0 treeC4 "m").1.find?
        (fun n => n.id == "m.outer.inner")).map (fun n => (n.kind, n.parent_id)) =
      some ("method", some "m.outer")) ∧
    (((extractSymbols srcC4 "/p/m.py" "h" 0 treeC4 "m").1.find?
        (fun n => n.id == "m.outer")).map (fun n => n.kind) = some "function") ∧
    ("method" : String) ≠ "function" := by
  unfold extractSymbols extractSymbolsList
  norm_num [tsFuel, treeC4, fdOuterC4, fdInnerC4, TSNode.children, TSNode.type]
  decide

theorem c4_kind_assignment_amended_witness :
    (fdOuterC4 ∈ treeC4.children ∧
     (findDefChild fdOuterC4).type = "function_definition" ∧
     (findDefChild fdOuterC4).childByFieldName "name" =
       some (TSNode.mk "identifier" (some "name") 4 9 0 0 [])) ∧
    ∃ n ∈ (extractSymbols srcC4 "/p/m.py" "h" 0 treeC4 "m").1,
      n.id = "m" ++ "." ++ nodeText srcC4 (TSNode.mk "identifier" (some "name") 4 9 0 0 []) ∧
      n.kind = (if treeC4.type == "block" then "method" else "function") :=
  ⟨⟨List.mem_singleton.mpr rfl, rfl, rfl⟩,
    c4_kind_assignment_amended srcC4 "/p/m.py" "h" 0 treeC4 "m" fdOuterC4
      (TSNode.mk "identifier" (some "name") 4 9 0 0 [])
      (List.mem_singleton.mpr rfl) rfl rfl⟩

/-! ### Skeletonizer (skeletonizer.py). -/

def indentSkipTypes : List String := ["indent", "dedent", "INDENT", "DEDENT"]

/-- `source.rfind(b"\n", 0, pos)` turned into a line start: the index just
after the last newline strictly before `pos`, or 0. -/
def lineStartBefore (src : List Char) (pos : Nat) : Nat :=
  (List.range pos).foldl (fun acc i => if src.get? i = some '\n' then i + 1 else acc) 0

/-- `_get_indent`: the textual prefix of the line containing the first
non-newline/indent child of the block (the Python code takes whatever
bytes precede the child on its line, whitespace or not). -/
def getIndent (src : List Char) (body : TSNode) : List Char :=
  match body.children.find? (fun c =>
      !(c.type == "newline") && !(indentSkipTypes.contains c.type)) with
  | some child =>
    (src.take child.startByte).drop (lineStartBefore src child.startByte)
  | none => "    ".data

/-- The scan of `_replace_body` for the start of the bytes to replace: a
leading expression statement decides the docstring case, indent tokens are
skipped, and the first other child's start byte is taken. -/
def restStart (children : List TSNode) (bodyEnd : Nat) : Option Nat :=
  match children with
  | [] => none
  | c :: rest =>
    if c.type == "expression_statement" then
      if c.children.any (fun s => s.type == "string") then
        some ((rest.head?.map TSNode.startByte).getD bodyEnd)
      else some c.startByte
    else if indentSkipTypes.contains c.type then
      (rest.find? (fun t => !(indentSkipTypes.contains t.type))).map TSNode.startByte
    else some c.startByte

/-- `_replace_body`: schedule one replacement for a function body — from
the rest-start (after the docstring when present) to the end of the block,
replaced by `{indent}...\n` (the docstring and no-docstring branches of
the Python code build the identical replacement). -/
def replaceBody (src : List Char) (body : TSNode) : Option (Nat × Nat × List Char) :=
  match restStart (body.children.filter (fun c => !(c.type == "newline"))) body.endByte with
  | none => none
  | some rs => some (rs, body.endByte, getIndent src body ++ "...".data ++ "\n".data)

/-- `_collect_replacements`: function bodies are replaced wholesale (no
recursion below them), class bodies are recursed into, and all other
nodes are traversed. -/
def collectReplacementsF (src : List Char) :
    Nat → List TSNode → List (Nat × Nat × List Char)
  | 0, _ => []
  | _ + 1, [] => []
  | fuel + 1, child :: rest =>
    let actual := findDefChild child
    let this :=
      if actual.type == "function_definition" then
        match actual.childByFieldName "body" with
        | some b => if b.type == "block" then (replaceBody src b).toList else []
        | none => []
      else if actual.type == "class_definition" then
        match actual.childByFieldName "body" with
        | some b => if b.type == "block" then collectReplacementsF src fuel b.children else []
        | none => []
      else collectReplacementsF src fuel child.children
    this ++ collectReplacementsF src fuel rest

def collectReplacements (src : List Char) (cs : List TSNode) :
    List (Nat × Nat × List Char) :=
  collectReplacementsF src (tsFuel cs) cs

/-- `sorted(replacements, reverse=True)`: descending by start byte, then
end byte (the replacement-bytes tie-break of Python's tuple comparison
cannot fire: no two scheduled replacements share both start and end). -/
def replGT (a b : Nat × Nat × List Char) : Bool :=
  a.1 > b.1 || (a.1 == b.1 && a.2.1 > b.2.1)

def insertReplDesc (x : Nat × Nat × List Char) :
    List (Nat × Nat × List Char) → List (Nat × Nat × List Char)
  | [] => [x]
  | y :: ys => if replGT x y then x :: y :: ys else y :: insertReplDesc x ys

def sortReplDesc : List (Nat × Nat × List Char) → List (Nat × Nat × List Char)
  | [] => []
  | x :: xs => insertReplDesc x (sortReplDesc xs)

/-- `result[start:end] = replacement` on the mutable buffer. -/
def applyOne (buf : List Char) (r : Nat × Nat × List Char) : List Char :=
  buf.take r.1 ++ r.2.2 ++ buf.drop r.2.1

/-- `skeletonize`: collect replacements over the parse tree's root and
apply them to the source in descending start order. -/
def skeletonize (src : List Char) (tree : TSNode) : List Char :=
  (sortReplDesc (collectReplacements src tree.children)).foldl applyOne src

/-- The tree-sitter parse tree of the valid one-line source
`"def f(): return 1"`: the grammar aliases the inline simple-statement
suite as a `block`, so the body block's bytes start at the `return`. -/
def treeC6 : TSNode := .mk "module" none 0 17 0 0 [
  .mk "function_definition" none 0 17 0 0 [
    .mk "def" none 0 3 0 0 [],
    .mk "identifier" (some "name") 4 5 0 0 [],
    .mk "parameters" (some "parameters") 5 7 0 0 [],
    .mk ":" none 7 8 0 0 [],
    .mk "block" (some "body") 9 17 0 0 [ .mk "return_statement" none 9 17 0 0 [] ]
  ]
]

def srcC6 : List Char := "def f(): return 1".data

def blockC6 : TSNode :=
  .mk "block" (some "body") 9 17 0 0 [ .mk "return_statement" none 9 17 0 0 [] ]

/-- C6 (code bug): on the parsing one-line input `def f(): return 1` the
skeletonizer's `_get_indent` returns the full line prefix `"def f(): "`
— which contains non-whitespace — so the scheduled replacement is
`"def f(): ...\n"` and the output `"def f(): def f(): ...\n"` duplicates
the header bytes.  The output neither preserves the bytes outside the
body, nor replaces the body with a spaces/tabs-indent-prefixed `...\n`,
nor parses; this contradicts the claim, skeletonize's own docstring
("Preserves original formatting and indentation") and spec §4.5's
definition of `indent` as "the textual prefix (spaces/tabs)". -/
theorem c6_skeletonizer_single_line_bug :
    skeletonize srcC6 treeC6 = "def f(): def f(): ...\n".data ∧
    collectReplacements srcC6 treeC6.children = [(9, 17, "def f(): ...\n".data)] ∧
    getIndent srcC6 blockC6 = "def f(): ".data ∧
    ¬ (("def f(): ".data).all (fun c => c == ' ' || c == Char.ofNat 9)) := by
  have hfuel : tsFuel treeC6.children = 15 := by
    norm_num [tsFuel, treeC6, TSNode.children]
  unfold skeletonize collectReplacements
  rw [show treeC6.children = [TSNode.mk "function_definition" none 0 17 0 0 [
    .mk "def" none 0 3 0 0 [],
    .mk "identifier" (some "name") 4 5 0 0 [],
    .mk "parameters" (some "parameters") 5 7 0 0 [],
    .mk ":" none 7 8 0 0 [],
    .mk "block" (some "body") 9 17 0 0 [ .mk "return_statement" none 9 17 0 0 [] ]]]
    from rfl, show tsFuel [TSNode.mk "function_definition" none 0 17 0 0 [
    .mk "def" none 0 3 0 0 [],
    .mk "identifier" (some "name") 4 5 0 0 [],
    .mk "parameters" (some "parameters") 5 7 0 0 [],
    .mk ":" none 7 8 0 0 [],
    .mk "block" (some "body") 9 17 0 0 [ .mk "return_statement" none 9 17 0 0 [] ]]] = 15
    from hfuel]
  decide

/-! ### Resume renderer (resume.py).  `generate_capsule` (capsule.py)
reads source files from disk for its parent-class section, so the capsule
rendering is an oracle parameter `capsule : String → Option String`
standing for `generate_capsule(db, stem, depth=1)`; `now` stands for
`time.time()`. -/

/-- `_estimate_tokens`: `len(text) // 4`. -/
def estimateTokens (text : String) : Nat := text.data.length / 4

/-- `ObservationStore.deduplicate_hook_observations`: one entry per
content, keeping the later timestamp in dict position, returned newest
first. -/
def dedupHookFold (acc : List Observation) (o : Observation) : List Observation :=
  match acc.find? (fun s => s.content == o.content) with
  | some s =>
    if o.created_at > s.created_at then
      acc.map (fun x => if x.content == o.content then o else x)
    else acc
  | none => acc ++ [o]

def deduplicate_hook_observations (obs : List Observation) : List Observation :=
  sortDescBy (fun o => o.created_at) (obs.foldl dedupHookFold [])

/-- `_add`: append the section when its full token cost fits the
remaining budget; on overflow, only a forced first section is added,
truncated to `budget * 4` characters. -/
def addSection (budget : Nat) (st : List String × Nat) (text : String)
    (force_first : Bool) : List String × Nat :=
  let cost := estimateTokens text
  if budget < st.2 + cost then
    if force_first ∧ st.1 = [] then (st.1 ++ [pyTake text (budget * 4)], budget)
    else st
  else (st.1 ++ [text], st.2 + cost)

/-- The id-deduplication of the merged claude/user observations, keeping
the first occurrence. -/
def dedupById (obs : List Observation) : List Observation :=
  (obs.foldl (fun (acc : List Nat × List Observation) o =>
    if acc.1.contains o.id then acc else (acc.1 ++ [o.id], acc.2 ++ [o])) ([], [])).2

def obsLine (o : Observation) : String :=
  "- " ++ o.content ++ (if o.tags.isEmpty then "" else " [" ++ pyJoin ", " o.tags ++ "]")

def decisionsSection (obs : List Observation) : String :=
  pyJoin "\n" (["## Decisions & Notes\n"] ++ obs.map obsLine ++ [""])

def commitsSection (obs : List Observation) : String :=
  pyJoin "\n" (["## Recent Commits\n"] ++ obs.map (fun o => "- " ++ o.content) ++ [""])

def filesTouchedSection (obs : List Observation) : String :=
  pyJoin "\n" (["## Files Touched\n"] ++ obs.map (fun o => "- " ++ o.content) ++ [""])

/-- `f.file_path.rsplit("/", 1)[-1].replace(".py", "")`. -/
def fileStem (path : String) : String :=
  pyReplace ((pySplitChar '/' path).getLastD path) ".py" ""

/-- Section 3 of the resume: `used` never changes inside the loop, so the
early `break` either drops all file lines or none; a capsule is inlined
only when it is non-empty and fits the budget on top of `used`. -/
def recentFilesSection (budget used : Nat) (capsule : String → Option String)
    (files : List IndexedFile) : String :=
  let fileLines :=
    if budget ≤ used then []
    else files.map (fun f =>
      match capsule (fileStem f.file_path) with
      | some c =>
        if ¬(c = "") ∧ estimateTokens c + used ≤ budget then c
        else "- `" ++ f.file_path ++ "`"
      | none => "- `" ++ f.file_path ++ "`")
  pyJoin "\n" (["## Recently Modified Files\n"] ++ fileLines ++ [""])

/-- The section-filling prelude of `generate_resume`: the four priority
sections folded through `_add` in order. -/
def resumeState (db : DB) (capsule : String → Option String) (now : Int)
    (budget hours : Nat) : List String × Nat :=
  let since : Int := now - hours * 3600
  let high := db.list_observations_since since (some "claude") none
      ++ db.list_observations_since since (some "user") none
  let unique_high := dedupById (sortDescBy (fun o => o.created_at) high)
  let st1 :=
    if unique_high ≠ [] then addSection budget ([], 0) (decisionsSection unique_high) true
    else ([], 0)
  let git_obs := db.list_observations_since since (some "git") none
  let st2 := if git_obs ≠ [] then addSection budget st1 (commitsSection git_obs) false else st1
  let recent_files := db.list_recently_indexed_files since none
  let st3 :=
    if recent_files ≠ [] then
      addSection budget st2 (recentFilesSection budget st2.2 capsule recent_files) false
    else st2
  let hook_obs := db.list_observations_since since (some "hook") none
  if hook_obs ≠ [] then
    addSection budget st3 (filesTouchedSection (deduplicate_hook_observations hook_obs)) false
  else st3

/-- `generate_resume`. -/
def generate_resume (db : DB) (capsule : String → Option String) (now : Int)
    (budget hours : Nat) : String :=
  let st := resumeState db capsule now budget hours
  if st.1 = [] then "No recent activity found.\n"
  else
    let content := "# Session Resume\n\n" ++ pyJoin "\n" st.1
    content ++ ("\n---\n*Budget used: ~" ++ (toString st.2 ++ (" of " ++
      (toString budget ++ " tokens*\n"))))

theorem str_append_assoc (a b c : String) : a ++ b ++ c = a ++ (b ++ c) := by
  cases a; cases b; cases c
  show String.mk _ = String.mk _
  rw [List.append_assoc]

theorem length_insertDescBy {α : Type} (k : α → Int) (x : α) (l : List α) :
    (insertDescBy k x l).length = l.length + 1 := by
  induction l with
  | nil => rfl
  | cons y ys ih =>
    unfold insertDescBy
    split
    · simp
    · simp [ih]

theorem length_sortDescBy {α : Type} (k : α → Int) (l : List α) :
    (sortDescBy k l).length = l.length := by
  induction l with
  | nil => rfl
  | cons y ys ih => simp [sortDescBy, length_insertDescBy, ih]

theorem sortDescBy_ne_nil {α : Type} (k : α → Int) {l : List α} (h : l ≠ []) :
    sortDescBy k l ≠ [] := by
  intro hc
  have := length_sortDescBy k l
  rw [hc] at this
  exact h (List.length_eq_zero.mp this.symm)

theorem dedupById_foldl_ne_nil :
    ∀ (xs : List Observation) (acc : List Nat × List Observation), acc.2 ≠ [] →
      (xs.foldl (fun (acc : List Nat × List Observation) o =>
        if acc.1.contains o.id then acc else (acc.1 ++ [o.id], acc.2 ++ [o])) acc).2 ≠ [] := by
  intro xs
  induction xs with
  | nil => intro acc h; exact h
  | cons x xs ih =>
    intro acc h
    rw [List.foldl_cons]
    apply ih
    split
    · exact h
    · simp

theorem dedupById_ne_nil {obs : List Observation} (h : obs ≠ []) :
    dedupById obs ≠ [] := by
  unfold dedupById
  cases obs with
  | nil => exact absurd rfl h
  | cons y ys =>
    rw [List.foldl_cons]
    apply dedupById_foldl_ne_nil
    simp

theorem addSection_first_ne_nil (b : Nat) (t : String) :
    (addSection b ([], 0) t true).1 ≠ [] := by
  simp only [addSection]
  by_cases h1 : b < 0 + estimateTokens t
  · rw [if_pos h1, if_pos ⟨trivial, trivial⟩]
    simp
  · rw [if_neg h1]
    simp

theorem addSection_preserves_ne_nil {b : Nat} {st : List String × Nat} {t : String}
    {ff : Bool} (h : st.1 ≠ []) : (addSection b st t ff).1 ≠ [] := by
  simp only [addSection]
  by_cases h1 : b < st.2 + estimateTokens t
  · rw [if_pos h1]
    by_cases h2 : ff = true ∧ st.1 = []
    · exact absurd h2.2 h
    · rw [if_neg h2]
      exact h
  · rw [if_neg h1]
    simp

theorem header_ne_noactivity (rest : String) :
    ("# Session Resume\n\n" ++ rest) ≠ "No recent activity found.\n" := by
  intro h
  have h2 := congrArg (fun s => s.data.take 2) h
  simp only [String.data_append] at h2
  rw [List.take_append_of_le_length (by decide)] at h2
  exact absurd h2 (by decide)

theorem mem_list_observations_since {db : DB} {since : Int} {src : Option String}
    {o : Observation} (ho : o ∈ db.observations) (h1 : since < o.created_at)
    (h2 : matchesOpt o.source src = true) :
    db.list_observations_since since src none ≠ [] := by
  unfold DB.list_observations_since applyLimit
  apply sortDescBy_ne_nil
  apply List.ne_nil_of_mem (a := o)
  rw [List.mem_filter]
  exact ⟨ho, by simp [h1, h2]⟩

theorem resumeState_sections_ne_nil (db : DB) (capsule : String → Option String)
    (now : Int) (budget hours : Nat)
    (h : ∃ o ∈ db.observations, (o.source = "claude" ∨ o.source = "user") ∧
      now - hours * 3600 < o.created_at) :
    (resumeState db capsule now budget hours).1 ≠ [] := by
  obtain ⟨o, ho, hsrc, hsince⟩ := h
  have hhigh : db.list_observations_since (now - hours * 3600) (some "claude") none
      ++ db.list_observations_since (now - hours * 3600) (some "user") none ≠ [] := by
    rcases hsrc with hs | hs
    · have := @mem_list_observations_since db _ (some "claude") o ho hsince
        (by simp [matchesOpt, hs])
      intro hc
      exact this (List.append_eq_nil.mp hc).1
    · have := @mem_list_observations_since db _ (some "user") o ho hsince
        (by simp [matchesOpt, hs])
      intro hc
      exact this (List.append_eq_nil.mp hc).2
  have huniq : dedupById (sortDescBy (fun o => o.created_at)
      (db.list_observations_since (now - hours * 3600) (some "claude") none
        ++ db.list_observations_since (now - hours * 3600) (some "user") none)) ≠ [] :=
    dedupById_ne_nil (sortDescBy_ne_nil _ hhigh)
  simp only [resumeState]
  rw [if_pos huniq]
  split <;> split <;> split <;>
    solve_by_elim [addSection_preserves_ne_nil, addSection_first_ne_nil]

/-- C7 amended: `_add` appends a section exactly when its full token cost
(`len(text) // 4`) fits the remaining budget; the one exception is a
forced first section (Decisions & Notes), which on overflow is still added
truncated to `budget * 4` characters.  Consequently the output carries the
"# Session Resume" header — never the no-activity message — whenever
claude/user observations exist in the lookback window.  (The original
claim's "whenever qualifying data exists" fails: with only lower-priority
data and a too-small budget the no-activity message is returned.) -/
theorem c7_resume_priority_fill_amended :
    (∀ (budget : Nat) (st : List String × Nat) (text : String) (ff : Bool),
      (st.2 + estimateTokens text ≤ budget →
        addSection budget st text ff = (st.1 ++ [text], st.2 + estimateTokens text)) ∧
      (budget < st.2 + estimateTokens text → (ff = false ∨ st.1 ≠ []) →
        addSection budget st text ff = st) ∧
      (budget < st.2 + estimateTokens text → ff = true → st.1 = [] →
        addSection budget st text ff = (st.1 ++ [pyTake text (budget * 4)], budget))) ∧
    (∀ (db : DB) (capsule : String → Option String) (now : Int) (budget hours : Nat),
      (∃ o ∈ db.observations, (o.source = "claude" ∨ o.source = "user") ∧
        now - hours * 3600 < o.created_at) →
      ∃ rest : String,
        generate_resume db capsule now budget hours = "# Session Resume\n\n" ++ rest ∧
        generate_resume db capsule now budget hours ≠ "No recent activity found.\n") := by
  constructor
  · intro budget st text ff
    refine ⟨?_, ?_, ?_⟩
    · intro hfit
      unfold addSection
      rw [if_neg (by omega)]
    · intro hover hnf
      unfold addSection
      rw [if_pos hover, if_neg ?_]
      rintro ⟨hff, hemp⟩
      rcases hnf with h | h
      · rw [h] at hff; exact absurd hff (by simp)
      · exact h hemp
    · intro hover hff hemp
      unfold addSection
      rw [if_pos hover, if_pos ⟨hff, hemp⟩]
  · intro db capsule now budget hours h
    have hne := resumeState_sections_ne_nil db capsule now budget hours h
    have heq : generate_resume db capsule now budget hours =
        "# Session Resume\n\n" ++
          (pyJoin "\n" (resumeState db capsule now budget hours).1 ++
            ("\n---\n*Budget used: ~" ++
              (toString (resumeState db capsule now budget hours).2 ++
                (" of " ++ (toString budget ++ " tokens*\n"))))) := by
      unfold generate_resume
      rw [if_neg hne, str_append_assoc]
    exact ⟨_, heq, heq ▸ header_ne_noactivity _⟩

/-- A store whose only lookback-window data is a single git observation:
qualifying data for the Recent Commits section exists. -/
def dbC7 : DB :=
  { nodes := [], edges := [], indexed_files := [],
    observations := [{ id := 1, content := "Commit abc123: fix auth",
                       created_at := 100, node_id := none,
                       tags := ["git", "commit"], source := "git" }] }

/-- C7 counterexample: with qualifying data in the lookback window (one
git observation) but a budget of 1 token, every section overflows, the
exception applies only to the Decisions & Notes section (absent here), and
`generate_resume` returns the no-activity message — the output is empty
despite qualifying data, contradicting the claim's "never empty whenever
qualifying data exists". -/
theorem c7_resume_counterexample :
    (∃ o ∈ dbC7.observations, o.source = "git" ∧ (200 : Int) - 1 * 3600 < o.created_at) ∧
    generate_resume dbC7 (fun _ => none) 200 1 1 = "No recent activity found.\n" := by
  decide

/-- A store with one claude observation in the lookback window, for the
amended-claim witness. -/
def dbC7w : DB :=
  { nodes := [], edges := [], indexed_files := [],
    observations := [{ id := 1, content := "Use SQLite", created_at := 100,
                       node_id := none, tags := [], source := "claude" }] }

theorem c7_resume_priority_fill_amended_witness :
    (∃ o ∈ dbC7w.observations, (o.source = "claude" ∨ o.source = "user") ∧
      (200 : Int) - 1 * 3600 < o.created_at) ∧
    ∃ rest : String,
      generate_resume dbC7w (fun _ => none) 200 4000 1 = "# Session Resume\n\n" ++ rest ∧
      generate_resume dbC7w (fun _ => none) 200 4000 1 ≠ "No recent activity found.\n" :=
  ⟨by decide,
    c7_resume_priority_fill_amended.2 dbC7w (fun _ => none) 200 4000 1 (by decide)⟩

end ContextGraph